import Mathlib

/-!
Verification of the laspec spectral rebinning module (`binning.py`).

The Python source operates on 1-D numpy arrays of floats.  We embed the
arrays as lists of rationals (exact arithmetic).  A numpy NaN is
represented by `none : Option ℚ`: the only NaN source in the algorithm is
the `bounds_error=False` linear interpolation, which yields NaN exactly
for queries outside the node range, and the code's per-pixel `flags`
test `np.any(np.isnan(...))` is a match on these options.  `np.sqrt`
(flux-error output) is embedded through `Real.sqrt`.
-/

namespace Laspec

/-- `np.diff`: consecutive differences. -/
def diffs : List ℚ → List ℚ
  | a :: b :: rest => (b - a) :: diffs (b :: rest)
  | _ => []

/-- `np.median`: sort ascending; the middle element for odd length, the
mean of the two middle elements for even length.  (numpy yields NaN on an
empty array; the claims only use nonempty input, we return 0 there.) -/
def median (l : List ℚ) : ℚ :=
  let s := l.insertionSort (· ≤ ·)
  if s.length % 2 = 1 then s.getD (s.length / 2) 0
  else if s.length = 0 then 0
  else (s.getD (s.length / 2 - 1) 0 + s.getD (s.length / 2) 0) / 2

/-- `mdwave(wave)`: median delta wavelength, `np.median(np.diff(wave))`. -/
def mdwave (wave : List ℚ) : ℚ := median (diffs wave)

/-- `np.min` (0 on the empty array, where numpy raises). -/
def listMin : List ℚ → ℚ
  | [] => 0
  | x :: xs => xs.foldl min x

/-- `np.max` (0 on the empty array, where numpy raises). -/
def listMax : List ℚ → ℚ
  | [] => 0
  | x :: xs => xs.foldl max x

/-- `np.ptp`: peak-to-peak, `max - min`. -/
def ptp (l : List ℚ) : ℚ := listMax l - listMin l

/-- Python `int(...)` applied to a float: truncation toward zero. -/
def truncInt (q : ℚ) : ℤ := if 0 ≤ q then ⌊q⌋ else ⌈q⌉

/-- `np.linspace a b n` (endpoint included).  In exact arithmetic the last
sample `a + (n-1)·((b-a)/(n-1))` equals `b`, as numpy guarantees. -/
noncomputable def linspace (a b : ℝ) (n : ℕ) : List ℝ :=
  (List.range n).map fun i : ℕ => a + (i : ℝ) * ((b - a) / ((n : ℝ) - 1))

/-- `wave_log10(wave, dwave)`: `npix = int(np.ptp(wave)/dwave) + 1`, then
`np.logspace(log10(min), log10(max), npix, base=10)`.  When the minimum is
not positive, numpy's `log10` yields a non-finite value and the resulting
samples are non-finite as well; we model those samples as `none`. -/
noncomputable def wave_log10 (wave : List ℚ) (dwave : Option ℚ) : List (Option ℝ) :=
  let d := dwave.getD (mdwave wave)
  let npix := (truncInt (ptp wave / d) + 1).toNat
  if 0 < listMin wave then
    (linspace (Real.logb 10 ((listMin wave : ℝ))) (Real.logb 10 ((listMax wave : ℝ))) npix).map
      fun t => some ((10 : ℝ) ^ t)
  else List.replicate npix none

/-- Helper for `center2edge`: given the previous center `p` and the
remaining centers, emit the midpoint edges `x[:-1] + dx/2` and the final
extrapolated edge `x[-1] + dx[-1]/2`. -/
def edgesAux : ℚ → List ℚ → List ℚ
  | p, [x] => [(p + x) / 2, x + (x - p) / 2]
  | p, x :: rest => (p + x) / 2 :: edgesAux x rest
  | _, [] => []

/-- `center2edge(x)`: `np.hstack((x[0] - dx[0]/2, x[:-1] + dx/2,
x[-1] + dx[-1]/2))` where `dx = np.diff(x)`.  The interior entries are
midpoints of consecutive centers.  (For fewer than two centers the Python
code raises an IndexError on `dx[0]`; we return `[]`.) -/
def center2edge (x : List ℚ) : List ℚ :=
  match x with
  | a :: b :: rest => (a - (b - a) / 2) :: edgesAux a (b :: rest)
  | _ => []

/-- Core of the piecewise-linear node→index interpolation: walk the node
list; on segment `[a, b]` the value is `k + (t - a)/(b - a)` where `k` is
the index of node `a`.  Callers guarantee `t ≤ last`. -/
def interpSeg : List ℚ → ℚ → ℚ → ℚ
  | a :: b :: rest, k, t =>
      if t ≤ b then k + (t - a) / (b - a) else interpSeg (b :: rest) (k + 1) t
  | _, k, _ => k

/-- `scipy.interpolate.interp1d(nodes, np.arange(len(nodes)), kind="linear",
bounds_error=False)` evaluated at `t`: NaN (`none`) outside
`[nodes[0], nodes[-1]]`, the piecewise-linear index otherwise. -/
def interpIndex (nodes : List ℚ) (t : ℚ) : Option ℚ :=
  match nodes with
  | [] => none
  | n0 :: rest =>
      if t < n0 ∨ (n0 :: rest).getLastD n0 < t then none
      else some (interpSeg (n0 :: rest) 0 t)

/-- `wave_new_edge_pos`: every new edge projected to old fractional pixel
index through `interp1d(wave_edge[:-1], np.arange(len(wave)), ...)`. -/
def newEdgePos (wave wave_new : List ℚ) : List (Option ℚ) :=
  (center2edge wave_new).map (interpIndex ((center2edge wave).dropLast))

/-- Adjacent pairing, `np.array([pos[:-1], pos[1:]]).T`. -/
def pairAdj {α : Type} : List α → List (α × α)
  | a :: b :: rest => (a, b) :: pairAdj (b :: rest)
  | _ => []

/-- `wave_new_edge_pos2`: the (lo, hi) edge-position pair of each new pixel. -/
def posPairs (wave wave_new : List ℚ) : List (Option ℚ × Option ℚ) :=
  pairAdj (newEdgePos wave wave_new)

/-- One row of `flags = np.any(np.isnan(wave_new_edge_pos2), axis=1)`:
true iff either mapped edge position is NaN. -/
def flagOf : Option ℚ × Option ℚ → Bool
  | (some _, some _) => false
  | _ => true

/-- The `flags` array of `rebin`. -/
def flags (wave wave_new : List ℚ) : List Bool :=
  (posPairs wave wave_new).map flagOf

/-- Python slice `l[a:b]` for integer bounds.  For `0 ≤ a ≤ b` (the only
case reached from valid pixels, see the index-safety claim) this is
`drop a` then `take (b - a)`, clipped at the list end like Python. -/
def pySlice {α : Type} (l : List α) (a b : ℤ) : List α :=
  (l.drop a.toNat).take (b - a).toNat

/-- Python element access `l[i]` for `0 ≤ i < len l` (the only case
reached from valid pixels); out-of-range access yields the default. -/
def pyGet {α : Type} (l : List α) (d : α) (i : ℤ) : α :=
  l.getD i.toNat d

/-- One iteration of the flux loop: for an unflagged pixel with mapped
edge positions `(lo, hi)`,
`np.sum(flux[ipix0:ipix1]) - flux[ipix0]*frac0 + flux[ipix1]*frac1`
with `ipix = floor(pos)` and `frac = pos - ipix`; a flagged pixel gets
NaN. -/
def rebinPix (flux : List ℚ) : Option ℚ × Option ℚ → Option ℚ
  | (some lo, some hi) =>
      some ((pySlice flux ⌊lo⌋ ⌊hi⌋).sum
        - pyGet flux 0 ⌊lo⌋ * (lo - (⌊lo⌋ : ℚ))
        + pyGet flux 0 ⌊hi⌋ * (hi - (⌊hi⌋ : ℚ)))
  | _ => none

/-- The `flux_new` array of `rebin`. -/
def rebinFlux (wave flux wave_new : List ℚ) : List (Option ℚ) :=
  (posPairs wave wave_new).map (rebinPix flux)

/-- The `np.sqrt(flux_err2_new)` array of `rebin`: the flux loop applied
to the squared errors `np.square(flux_err)`, then a square root per
pixel (NaN stays NaN). -/
noncomputable def rebinFluxErr (wave flux_err wave_new : List ℚ) : List (Option ℝ) :=
  (rebinFlux wave (flux_err.map fun e => e * e) wave_new).map
    fun v => v.map fun q => Real.sqrt ((q : ℝ))

/-- One iteration of the mask loop: for an unflagged pixel,
`np.any(mask[ipix0:ipix1+1])`; a flagged pixel keeps the
`np.zeros_like(..., dtype=bool)` default, false. -/
def rebinMaskPix (mask : List Bool) : Option ℚ × Option ℚ → Bool
  | (some lo, some hi) => (pySlice mask ⌊lo⌋ (⌊hi⌋ + 1)).any id
  | _ => false

/-- The `mask_new` array of `rebin`. -/
def rebinMask (wave : List ℚ) (mask : List Bool) (wave_new : List ℚ) : List Bool :=
  (posPairs wave wave_new).map (rebinMaskPix mask)

/-- The value returned by `rebin`: whichever of flux / flux_err / mask
were supplied, rebinned onto the new grid. -/
structure RebinResult where
  flux : Option (List (Option ℚ))
  flux_err : Option (List (Option ℝ))
  mask : Option (List Bool)

/-- `rebin(wave, flux, flux_err, mask, wave_new)`.  Each optional data
array is shape-checked (`assert arr.shape == wave.shape`) before use; a
failing assertion aborts the whole call with no partial result, modelled
as `Except.error`.  (The `wave_new=None` default grid is `wave_log10`,
treated separately; here the caller passes the new grid.) -/
noncomputable def rebin (wave : List ℚ) (flux flux_err : Option (List ℚ))
    (mask : Option (List Bool)) (wave_new : List ℚ) : Except String RebinResult :=
  if flux.any fun f => f.length != wave.length then
    Except.error "AssertionError: flux.shape"
  else if flux_err.any fun f => f.length != wave.length then
    Except.error "AssertionError: flux_err.shape"
  else if mask.any fun m => m.length != wave.length then
    Except.error "AssertionError: mask.shape"
  else
    Except.ok
      { flux := flux.map fun f => rebinFlux wave f wave_new
        flux_err := flux_err.map fun f => rebinFluxErr wave f wave_new
        mask := mask.map fun m => rebinMask wave m wave_new }

/-! ### Basic lemmas about the helpers -/

theorem diffs_length (l : List ℚ) : (diffs l).length = l.length - 1 := by
  match l with
  | [] => rfl
  | [a] => rfl
  | a :: b :: rest =>
    simp only [diffs, List.length_cons]
    rw [diffs_length (b :: rest)]
    simp

theorem mem_diffs {l : List ℚ} {d : ℚ} (hd : d ∈ diffs l) :
    ∃ a b : ℚ, a ∈ l ∧ b ∈ l ∧ d = b - a := by
  match l with
  | [] => simp [diffs] at hd
  | [a] => simp [diffs] at hd
  | a :: b :: rest =>
    rw [diffs] at hd
    rcases List.mem_cons.mp hd with h | h
    · exact ⟨a, b, by simp, by simp, h⟩
    · obtain ⟨x, y, hx, hy, hxy⟩ := mem_diffs h
      exact ⟨x, y, List.mem_cons_of_mem _ hx, List.mem_cons_of_mem _ hy, hxy⟩

theorem foldl_min_le_init (xs : List ℚ) (a : ℚ) : xs.foldl min a ≤ a := by
  induction xs generalizing a with
  | nil => exact le_rfl
  | cons x xs ih => exact le_trans (ih (min a x)) (min_le_left a x)

theorem foldl_min_le_mem (xs : List ℚ) (a : ℚ) {x : ℚ} (hx : x ∈ xs) :
    xs.foldl min a ≤ x := by
  induction xs generalizing a with
  | nil => simp at hx
  | cons y ys ih =>
    rcases List.mem_cons.mp hx with h | h
    · subst h
      exact le_trans (foldl_min_le_init ys (min a x)) (min_le_right a x)
    · exact ih (min a y) h

theorem listMin_le {l : List ℚ} {x : ℚ} (hx : x ∈ l) : listMin l ≤ x := by
  match l with
  | [] => simp at hx
  | y :: ys =>
    rcases List.mem_cons.mp hx with h | h
    · subst h; exact foldl_min_le_init ys x
    · exact foldl_min_le_mem ys y h

theorem init_le_foldl_max (xs : List ℚ) (a : ℚ) : a ≤ xs.foldl max a := by
  induction xs generalizing a with
  | nil => exact le_rfl
  | cons x xs ih => exact le_trans (le_max_left a x) (ih (max a x))

theorem mem_le_foldl_max (xs : List ℚ) (a : ℚ) {x : ℚ} (hx : x ∈ xs) :
    x ≤ xs.foldl max a := by
  induction xs generalizing a with
  | nil => simp at hx
  | cons y ys ih =>
    rcases List.mem_cons.mp hx with h | h
    · subst h
      exact le_trans (le_max_right a x) (init_le_foldl_max ys (max a x))
    · exact ih (max a y) h

theorem le_listMax {l : List ℚ} {x : ℚ} (hx : x ∈ l) : x ≤ listMax l := by
  match l with
  | [] => simp at hx
  | y :: ys =>
    rcases List.mem_cons.mp hx with h | h
    · subst h; exact init_le_foldl_max ys x
    · exact mem_le_foldl_max ys y h

theorem listMin_le_listMax {l : List ℚ} (hl : l ≠ []) : listMin l ≤ listMax l := by
  match l with
  | [] => exact absurd rfl hl
  | y :: ys =>
    have h1 := listMin_le (List.mem_cons_self y ys)
    have h2 := le_listMax (List.mem_cons_self y ys)
    exact le_trans h1 h2

theorem median_le_of_forall {l : List ℚ} {c : ℚ} (hl : l ≠ [])
    (h : ∀ x ∈ l, x ≤ c) : median l ≤ c := by
  have hperm := List.perm_insertionSort (· ≤ ·) l
  have hlen : (l.insertionSort (· ≤ ·)).length = l.length := hperm.length_eq
  have hpos : 0 < l.length := List.length_pos.mpr hl
  have hmem : ∀ i (_ : i < (l.insertionSort (· ≤ ·)).length),
      (l.insertionSort (· ≤ ·)).getD i 0 ≤ c := by
    intro i hi
    rw [List.getD_eq_getElem _ _ hi]
    exact h _ (hperm.mem_iff.mp (List.getElem_mem hi))
  unfold median
  simp only
  split
  · exact hmem _ (by omega)
  · split
    · omega
    · have h1 := hmem ((l.insertionSort (· ≤ ·)).length / 2 - 1) (by omega)
      have h2 := hmem ((l.insertionSort (· ≤ ·)).length / 2) (by omega)
      linarith

theorem mdwave_le_ptp {wave : List ℚ} (hw : 2 ≤ wave.length) :
    mdwave wave ≤ ptp wave := by
  have hne : diffs wave ≠ [] := by
    have := diffs_length wave
    intro h
    rw [h] at this
    simp at this
    omega
  refine median_le_of_forall hne ?_
  intro d hd
  obtain ⟨a, b, ha, hb, rfl⟩ := mem_diffs hd
  have h1 := listMin_le ha
  have h2 := le_listMax hb
  unfold ptp
  linarith

/-! ### Edge construction -/

theorem edgesAux_length (l : List ℚ) (p : ℚ) (hl : l ≠ []) :
    (edgesAux p l).length = l.length + 1 := by
  match l with
  | [x] => rfl
  | x :: y :: rest =>
    have ih := edgesAux_length (y :: rest) x (by simp)
    simp only [edgesAux, List.length_cons] at ih ⊢
    omega

theorem edgesAux_head? (p x : ℚ) (l : List ℚ) :
    (edgesAux p (x :: l)).head? = some ((p + x) / 2) := by
  cases l <;> simp [edgesAux]

theorem chain'_edgesAux (l : List ℚ) (p x : ℚ) (hpx : p < x)
    (hl : List.Chain' (· < ·) (x :: l)) :
    List.Chain' (· < ·) (edgesAux p (x :: l)) := by
  induction l generalizing p x with
  | nil =>
    simp only [edgesAux, List.chain'_cons, List.chain'_singleton, and_true]
    linarith
  | cons y rest ih =>
    have hxy : x < y := (List.chain'_cons.mp hl).1
    have htail : List.Chain' (· < ·) (y :: rest) := (List.chain'_cons.mp hl).2
    have hrec := ih x y hxy htail
    show List.Chain' (· < ·) ((p + x) / 2 :: edgesAux x (y :: rest))
    refine List.chain'_cons'.mpr ⟨?_, hrec⟩
    intro c hc
    rw [edgesAux_head?] at hc
    rcases Option.some_inj.mp hc with rfl
    linarith

theorem center2edge_eq (a b : ℚ) (rest : List ℚ) :
    center2edge (a :: b :: rest) = (a - (b - a) / 2) :: edgesAux a (b :: rest) := rfl

theorem center2edge_length {x : List ℚ} (hl : 2 ≤ x.length) :
    (center2edge x).length = x.length + 1 := by
  match x with
  | a :: b :: rest =>
    rw [center2edge_eq]
    have h := edgesAux_length (b :: rest) a (by simp)
    simp only [List.length_cons] at h ⊢
    omega

theorem chain'_center2edge {x : List ℚ} (hx : List.Chain' (· < ·) x)
    (hl : 2 ≤ x.length) : List.Chain' (· < ·) (center2edge x) := by
  match x with
  | a :: b :: rest =>
    have hab : a < b := (List.chain'_cons.mp hx).1
    have htail : List.Chain' (· < ·) (b :: rest) := (List.chain'_cons.mp hx).2
    rw [center2edge_eq]
    refine List.chain'_cons'.mpr ⟨?_, chain'_edgesAux rest a b hab htail⟩
    intro c hc
    rw [edgesAux_head?] at hc
    rcases Option.some_inj.mp hc with rfl
    linarith

/-! ### Adjacent pairing -/

theorem pairAdj_length {α : Type} (l : List α) : (pairAdj l).length = l.length - 1 := by
  match l with
  | [] => rfl
  | [a] => rfl
  | a :: b :: rest =>
    have ih := pairAdj_length (b :: rest)
    simp only [pairAdj, List.length_cons] at ih ⊢
    omega

theorem pairAdj_getElem {α : Type} (l : List α) (i : ℕ) (h : i + 1 < l.length)
    (h2 : i < (pairAdj l).length) :
    (pairAdj l)[i] = (l[i], l[i + 1]) := by
  match l, i with
  | a :: b :: rest, 0 => rfl
  | a :: b :: rest, Nat.succ i =>
    have h' : i + 1 < (b :: rest).length := by
      simp only [List.length_cons] at h ⊢
      omega
    have h2' : i < (pairAdj (b :: rest)).length := by
      have := pairAdj_length (b :: rest)
      have := pairAdj_length (a :: b :: rest)
      simp only [List.length_cons] at *
      omega
    show (pairAdj (b :: rest))[i] = _
    rw [pairAdj_getElem (b :: rest) i h' h2']
    simp

theorem pairAdj_getD {α : Type} (l : List α) (i : ℕ) (h : i + 1 < l.length)
    (d : α × α) (d' : α) :
    (pairAdj l).getD i d = (l.getD i d', l.getD (i + 1) d') := by
  have h2 : i < (pairAdj l).length := by
    rw [pairAdj_length]
    omega
  rw [List.getD_eq_getElem _ _ h2, pairAdj_getElem l i h h2,
    List.getD_eq_getElem _ _ (by omega), List.getD_eq_getElem _ _ h]

/-! ### Interpolation lemmas -/

theorem getLastD_indep {α : Type} (a : α) (l : List α) (d d' : α) :
    (a :: l).getLastD d = (a :: l).getLastD d' := by
  rw [List.getLastD_cons, List.getLastD_cons]

theorem getLastD_eq_getElem {α : Type} (l : List α) (d : α) (h : 0 < l.length) :
    l.getLastD d = l[l.length - 1] := by
  match l with
  | a :: rest =>
    rw [List.getLastD_eq_getLast?, List.getLast?_eq_getLast (a :: rest) (by simp),
      Option.getD_some, List.getLast_eq_getElem]

theorem chain'_getElem_lt {l : List ℚ} (hl : List.Chain' (· < ·) l) (i j : ℕ)
    (hij : i < j) (hj : j < l.length) : l[i] < l[j] := by
  have hp : List.Pairwise (· < ·) l := List.chain'_iff_pairwise.mp hl
  exact List.pairwise_iff_getElem.mp hp i j (by omega) hj hij

theorem interpSeg_bounds (l : List ℚ) (k t : ℚ) (hl : List.Chain' (· < ·) l)
    (hne : l ≠ []) (hhead : l.headD 0 ≤ t) (hlast : t ≤ l.getLastD 0) :
    k ≤ interpSeg l k t ∧ interpSeg l k t ≤ k + (l.length : ℚ) - 1 := by
  match l with
  | [x] =>
    simp only [interpSeg, List.length_singleton, Nat.cast_one]
    constructor <;> linarith
  | a :: b :: rest =>
    have hab : a < b := (List.chain'_cons.mp hl).1
    have htail : List.Chain' (· < ·) (b :: rest) := (List.chain'_cons.mp hl).2
    have hlast' : t ≤ (b :: rest).getLastD 0 := by
      rw [List.getLastD_cons] at hlast
      rw [getLastD_indep b rest 0 a]
      exact hlast
    simp only [List.headD_cons] at hhead
    rw [show interpSeg (a :: b :: rest) k t =
        if t ≤ b then k + (t - a) / (b - a) else interpSeg (b :: rest) (k + 1) t
      from rfl]
    split
    · rename_i hb
      have h1 : 0 ≤ (t - a) / (b - a) := div_nonneg (by linarith) (by linarith)
      have h2 : (t - a) / (b - a) ≤ 1 := by
        rw [div_le_one (by linarith)]
        linarith
      simp only [List.length_cons]
      push_cast
      constructor <;> linarith
    · rename_i hb
      push_neg at hb
      have ih := interpSeg_bounds (b :: rest) (k + 1) t htail (by simp)
        (by simpa using le_of_lt hb) hlast'
      simp only [List.length_cons] at ih ⊢
      push_cast at ih ⊢
      constructor <;> linarith

theorem interpSeg_mono (l : List ℚ) (k s t : ℚ) (hl : List.Chain' (· < ·) l)
    (hne : l ≠ []) (hhead : l.headD 0 ≤ s) (hst : s ≤ t)
    (hlast : t ≤ l.getLastD 0) :
    interpSeg l k s ≤ interpSeg l k t := by
  match l with
  | [x] => simp [interpSeg]
  | a :: b :: rest =>
    have hab : a < b := (List.chain'_cons.mp hl).1
    have htail : List.Chain' (· < ·) (b :: rest) := (List.chain'_cons.mp hl).2
    have hlast' : t ≤ (b :: rest).getLastD 0 := by
      rw [List.getLastD_cons] at hlast
      rw [getLastD_indep b rest 0 a]
      exact hlast
    simp only [List.headD_cons] at hhead
    rw [interpSeg, interpSeg]
    by_cases htb : t ≤ b
    · have hsb : s ≤ b := le_trans hst htb
      rw [if_pos htb, if_pos hsb]
      have hba : (0 : ℚ) < b - a := by linarith
      have : (s - a) / (b - a) ≤ (t - a) / (b - a) := by
        gcongr
      linarith
    · push_neg at htb
      rw [if_neg (not_le.mpr htb)]
      by_cases hsb : s ≤ b
      · rw [if_pos hsb]
        have h2 : (s - a) / (b - a) ≤ 1 := by
          rw [div_le_one (by linarith)]
          linarith
        have hlow := (interpSeg_bounds (b :: rest) (k + 1) t htail (by simp)
          (by simpa using le_of_lt htb) hlast').1
        linarith
      · push_neg at hsb
        rw [if_neg (not_le.mpr hsb)]
        exact interpSeg_mono (b :: rest) (k + 1) s t htail (by simp)
          (by simpa using le_of_lt hsb) hst hlast'

theorem interpSeg_node (l : List ℚ) (k : ℚ) (i : ℕ) (hl : List.Chain' (· < ·) l)
    (hi : i < l.length) : interpSeg l k (l[i]) = k + (i : ℚ) := by
  match l, i with
  | [x], 0 =>
    have hx : interpSeg [x] k ([x][0]) = k := rfl
    rw [hx]
    simp
  | a :: b :: rest, 0 =>
    have hab : a < b := (List.chain'_cons.mp hl).1
    have h0 : (a :: b :: rest)[0] = a := rfl
    rw [h0, interpSeg, if_pos (le_of_lt hab)]
    simp
  | a :: b :: rest, Nat.succ j =>
    have hab : a < b := (List.chain'_cons.mp hl).1
    have htail : List.Chain' (· < ·) (b :: rest) := (List.chain'_cons.mp hl).2
    have hj : j < (b :: rest).length := by
      simp only [List.length_cons] at hi ⊢
      omega
    have hget : (a :: b :: rest)[j + 1] = (b :: rest)[j] := List.getElem_cons_succ ..
    rw [hget]
    match j with
    | 0 =>
      have hb : ((b :: rest)[0] : ℚ) = b := rfl
      rw [hb, interpSeg, if_pos le_rfl, div_self (by linarith : b - a ≠ 0)]
      simp
    | Nat.succ m =>
      have hbm : b < (b :: rest)[m + 1] := by
        simpa using chain'_getElem_lt htail 0 (m + 1) (by omega) hj
      rw [interpSeg, if_neg (by linarith)]
      rw [interpSeg_node (b :: rest) (k + 1) (m + 1) htail hj]
      push_cast
      ring

theorem interpIndex_some_elim {nodes : List ℚ} {t v : ℚ}
    (h : interpIndex nodes t = some v) :
    nodes ≠ [] ∧ nodes.headD 0 ≤ t ∧ t ≤ nodes.getLastD 0 ∧
      v = interpSeg nodes 0 t := by
  match nodes with
  | [] => simp [interpIndex] at h
  | n0 :: rest =>
    rw [interpIndex] at h
    split at h
    · exact absurd h (by simp)
    · rename_i hcond
      push_neg at hcond
      refine ⟨by simp, by simpa using hcond.1, ?_, by simpa using h.symm⟩
      rw [getLastD_indep n0 rest 0 n0]
      exact hcond.2

theorem interpIndex_bounds {nodes : List ℚ} {t v : ℚ}
    (hl : List.Chain' (· < ·) nodes)
    (h : interpIndex nodes t = some v) :
    0 ≤ v ∧ v ≤ (nodes.length : ℚ) - 1 := by
  obtain ⟨hne, hhead, hlast, rfl⟩ := interpIndex_some_elim h
  have := interpSeg_bounds nodes 0 t hl hne hhead hlast
  constructor <;> linarith [this.1, this.2]

theorem interpIndex_node {nodes : List ℚ} (hl : List.Chain' (· < ·) nodes)
    (i : ℕ) (hi : i < nodes.length) :
    interpIndex nodes (nodes[i]) = some (i : ℚ) := by
  match nodes with
  | n0 :: rest =>
    have hn0 : n0 ≤ (n0 :: rest)[i] := by
      match i with
      | 0 => exact le_rfl
      | Nat.succ m =>
        exact le_of_lt (by simpa using chain'_getElem_lt hl 0 (m + 1) (by omega) hi)
    have hlast : (n0 :: rest)[i] ≤ (n0 :: rest).getLastD n0 := by
      rw [getLastD_eq_getElem (n0 :: rest) n0 (by simp)]
      rcases Nat.lt_or_ge i ((n0 :: rest).length - 1) with hlt | hge
      · exact le_of_lt (chain'_getElem_lt hl i ((n0 :: rest).length - 1) hlt
          (by simp only [List.length_cons]; omega))
      · have : i = (n0 :: rest).length - 1 := by omega
        subst this
        exact le_rfl
    have hcond : ¬((n0 :: rest)[i] < n0 ∨
        (n0 :: rest).getLastD n0 < (n0 :: rest)[i]) := by
      push_neg
      exact ⟨hn0, hlast⟩
    rw [interpIndex, if_neg hcond, interpSeg_node (n0 :: rest) 0 i hl hi]
    simp

theorem interpIndex_mono {nodes : List ℚ} {s t vs vt : ℚ}
    (hl : List.Chain' (· < ·) nodes)
    (hs : interpIndex nodes s = some vs) (ht : interpIndex nodes t = some vt)
    (hst : s ≤ t) : vs ≤ vt := by
  obtain ⟨hne, hheads, _, rfl⟩ := interpIndex_some_elim hs
  obtain ⟨_, _, hlastt, rfl⟩ := interpIndex_some_elim ht
  exact interpSeg_mono nodes 0 s t hl hne hheads hst hlastt

/-! ### Pipeline lemmas -/

theorem chain'_getD_lt {l : List ℚ} (hl : List.Chain' (· < ·) l) {i j : ℕ}
    (hij : i < j) (hj : j < l.length) : l.getD i 0 < l.getD j 0 := by
  rw [List.getD_eq_getElem _ _ (by omega), List.getD_eq_getElem _ _ hj]
  exact chain'_getElem_lt hl i j hij hj

theorem interpIndex_none_of_gt {nodes : List ℚ} {t : ℚ}
    (h : nodes.getLastD 0 < t) : interpIndex nodes t = none := by
  match nodes with
  | [] => rfl
  | n0 :: rest =>
    rw [interpIndex, if_pos]
    exact Or.inr (by rw [getLastD_indep n0 rest n0 0]; exact h)

theorem interpIndex_none_of_lt {nodes : List ℚ} {t : ℚ}
    (h : t < nodes.headD 0) : interpIndex nodes t = none := by
  match nodes with
  | [] => rfl
  | n0 :: rest =>
    rw [interpIndex, if_pos]
    exact Or.inl (by simpa using h)

theorem interpIndex_isSome_of_mem {nodes : List ℚ} {t : ℚ} (hne : nodes ≠ [])
    (h1 : nodes.headD 0 ≤ t) (h2 : t ≤ nodes.getLastD 0) :
    (interpIndex nodes t).isSome = true := by
  match nodes with
  | n0 :: rest =>
    rw [interpIndex, if_neg]
    · rfl
    · push_neg
      refine ⟨by simpa using h1, ?_⟩
      rw [getLastD_indep n0 rest n0 0]
      exact h2

theorem nodes_length {wave : List ℚ} (h : 2 ≤ wave.length) :
    ((center2edge wave).dropLast).length = wave.length := by
  rw [List.length_dropLast, center2edge_length h]
  omega

theorem nodes_chain {wave : List ℚ} (hc : List.Chain' (· < ·) wave)
    (h : 2 ≤ wave.length) :
    List.Chain' (· < ·) ((center2edge wave).dropLast) := by
  have hp := List.chain'_iff_pairwise.mp (chain'_center2edge hc h)
  exact List.chain'_iff_pairwise.mpr (hp.sublist (List.dropLast_sublist _))

theorem nodes_getD {wave : List ℚ} (h : 2 ≤ wave.length) {i : ℕ}
    (hi : i < wave.length) :
    ((center2edge wave).dropLast).getD i 0 = (center2edge wave).getD i 0 := by
  have h1 : i < ((center2edge wave).dropLast).length := by
    rw [nodes_length h]
    exact hi
  have h2 : i < (center2edge wave).length := by
    rw [center2edge_length h]
    omega
  rw [List.getD_eq_getElem _ _ h1, List.getD_eq_getElem _ _ h2]
  exact List.getElem_dropLast ..

theorem newEdgePos_length {wave wave_new : List ℚ} (h : 2 ≤ wave_new.length) :
    (newEdgePos wave wave_new).length = wave_new.length + 1 := by
  unfold newEdgePos
  rw [List.length_map, center2edge_length h]

theorem newEdgePos_getD {wave wave_new : List ℚ} (h : 2 ≤ wave_new.length)
    {i : ℕ} (hi : i < wave_new.length + 1) :
    (newEdgePos wave wave_new).getD i none =
      interpIndex ((center2edge wave).dropLast) ((center2edge wave_new).getD i 0) := by
  have h1 : i < (newEdgePos wave wave_new).length := by
    rw [newEdgePos_length h]
    exact hi
  have h2 : i < (center2edge wave_new).length := by
    rw [center2edge_length h]
    exact hi
  unfold newEdgePos at h1 ⊢
  rw [List.getD_eq_getElem _ _ h1, List.getElem_map, List.getD_eq_getElem _ _ h2]

theorem posPairs_length {wave wave_new : List ℚ} (h : 2 ≤ wave_new.length) :
    (posPairs wave wave_new).length = wave_new.length := by
  unfold posPairs
  rw [pairAdj_length, newEdgePos_length h]
  omega

theorem posPairs_getD {wave wave_new : List ℚ} (h : 2 ≤ wave_new.length)
    {i : ℕ} (hi : i < wave_new.length) :
    (posPairs wave wave_new).getD i (none, none) =
      ((newEdgePos wave wave_new).getD i none,
       (newEdgePos wave wave_new).getD (i + 1) none) := by
  unfold posPairs
  exact pairAdj_getD _ i (by rw [newEdgePos_length h]; omega) (none, none) none

theorem rebinFlux_length {wave flux wave_new : List ℚ} (h : 2 ≤ wave_new.length) :
    (rebinFlux wave flux wave_new).length = wave_new.length := by
  unfold rebinFlux
  rw [List.length_map, posPairs_length h]

theorem rebinFlux_getD {wave flux wave_new : List ℚ} (h : 2 ≤ wave_new.length)
    {i : ℕ} (hi : i < wave_new.length) :
    (rebinFlux wave flux wave_new).getD i none =
      rebinPix flux ((posPairs wave wave_new).getD i (none, none)) := by
  have h1 : i < (rebinFlux wave flux wave_new).length := by
    rw [rebinFlux_length h]
    exact hi
  have h2 : i < (posPairs wave wave_new).length := by
    rw [posPairs_length h]
    exact hi
  unfold rebinFlux at h1 ⊢
  rw [List.getD_eq_getElem _ _ h1, List.getElem_map, List.getD_eq_getElem _ _ h2]

theorem rebinFluxErr_length {wave : List ℚ} {flux_err wave_new : List ℚ}
    (h : 2 ≤ wave_new.length) :
    (rebinFluxErr wave flux_err wave_new).length = wave_new.length := by
  unfold rebinFluxErr
  rw [List.length_map, rebinFlux_length h]

theorem rebinFluxErr_getD {wave flux_err wave_new : List ℚ} (h : 2 ≤ wave_new.length)
    {i : ℕ} (hi : i < wave_new.length) :
    (rebinFluxErr wave flux_err wave_new).getD i none =
      (rebinPix (flux_err.map fun e => e * e)
          ((posPairs wave wave_new).getD i (none, none))).map
        fun q => Real.sqrt ((q : ℝ)) := by
  have h1 : i < (rebinFluxErr wave flux_err wave_new).length := by
    rw [rebinFluxErr_length h]
    exact hi
  have h2 : i < (rebinFlux wave (flux_err.map fun e => e * e) wave_new).length := by
    rw [rebinFlux_length h]
    exact hi
  unfold rebinFluxErr at h1 ⊢
  rw [List.getD_eq_getElem _ _ h1, List.getElem_map,
    ← List.getD_eq_getElem _ none h2, rebinFlux_getD h hi]

theorem rebinMask_length {wave : List ℚ} {mask : List Bool} {wave_new : List ℚ}
    (h : 2 ≤ wave_new.length) :
    (rebinMask wave mask wave_new).length = wave_new.length := by
  unfold rebinMask
  rw [List.length_map, posPairs_length h]

theorem rebinMask_getD {wave : List ℚ} {mask : List Bool} {wave_new : List ℚ}
    (h : 2 ≤ wave_new.length) {i : ℕ} (hi : i < wave_new.length) (d : Bool) :
    (rebinMask wave mask wave_new).getD i d =
      rebinMaskPix mask ((posPairs wave wave_new).getD i (none, none)) := by
  have h1 : i < (rebinMask wave mask wave_new).length := by
    rw [rebinMask_length h]
    exact hi
  have h2 : i < (posPairs wave wave_new).length := by
    rw [posPairs_length h]
    exact hi
  unfold rebinMask at h1 ⊢
  rw [List.getD_eq_getElem _ _ h1, List.getElem_map, List.getD_eq_getElem _ _ h2]

theorem flags_length {wave wave_new : List ℚ} (h : 2 ≤ wave_new.length) :
    (flags wave wave_new).length = wave_new.length := by
  unfold flags
  rw [List.length_map, posPairs_length h]

theorem flags_getD {wave wave_new : List ℚ} (h : 2 ≤ wave_new.length)
    {i : ℕ} (hi : i < wave_new.length) (d : Bool) :
    (flags wave wave_new).getD i d =
      flagOf ((posPairs wave wave_new).getD i (none, none)) := by
  have h1 : i < (flags wave wave_new).length := by
    rw [flags_length h]
    exact hi
  have h2 : i < (posPairs wave wave_new).length := by
    rw [posPairs_length h]
    exact hi
  unfold flags at h1 ⊢
  rw [List.getD_eq_getElem _ _ h1, List.getElem_map, List.getD_eq_getElem _ _ h2]

theorem posPairs_some_bounds {wave wave_new : List ℚ} {lo hi : ℚ}
    (hc : List.Chain' (· < ·) wave) (hw : 2 ≤ wave.length)
    (h2 : 2 ≤ wave_new.length) {i : ℕ} (hin : i < wave_new.length)
    (hp : (posPairs wave wave_new).getD i (none, none) = (some lo, some hi)) :
    0 ≤ lo ∧ lo ≤ (wave.length : ℚ) - 1 ∧ 0 ≤ hi ∧ hi ≤ (wave.length : ℚ) - 1 := by
  rw [posPairs_getD h2 hin, newEdgePos_getD h2 (by omega),
    newEdgePos_getD h2 (by omega)] at hp
  have hplo := congrArg Prod.fst hp
  have hphi := congrArg Prod.snd hp
  simp only at hplo hphi
  have hch := nodes_chain hc hw
  have hlen := nodes_length hw
  have b1 := interpIndex_bounds hch hplo
  have b2 := interpIndex_bounds hch hphi
  rw [hlen] at b1 b2
  exact ⟨b1.1, b1.2, b2.1, b2.2⟩

theorem posPairs_some_mono {wave wave_new : List ℚ} {lo hi : ℚ}
    (hc : List.Chain' (· < ·) wave) (hw : 2 ≤ wave.length)
    (hcn : List.Chain' (· < ·) wave_new) (h2 : 2 ≤ wave_new.length)
    {i : ℕ} (hin : i < wave_new.length)
    (hp : (posPairs wave wave_new).getD i (none, none) = (some lo, some hi)) :
    lo ≤ hi := by
  rw [posPairs_getD h2 hin, newEdgePos_getD h2 (by omega),
    newEdgePos_getD h2 (by omega)] at hp
  have hplo := congrArg Prod.fst hp
  have hphi := congrArg Prod.snd hp
  simp only at hplo hphi
  have hch := nodes_chain hc hw
  have hedge : (center2edge wave_new).getD i 0 < (center2edge wave_new).getD (i + 1) 0 := by
    refine chain'_getD_lt (chain'_center2edge hcn h2) (by omega) ?_
    rw [center2edge_length h2]
    omega
  exact interpIndex_mono hch hplo hphi (le_of_lt hedge)

/-! ### Per-pixel helper lemmas -/

theorem flagOf_true_iff (p : Option ℚ × Option ℚ) :
    flagOf p = true ↔ p.1 = none ∨ p.2 = none := by
  rcases p with ⟨a, b⟩
  match a, b with
  | none, none => simp [flagOf]
  | none, some b => simp [flagOf]
  | some a, none => simp [flagOf]
  | some a, some b => simp [flagOf]

theorem rebinPix_flagged (flux : List ℚ) (p : Option ℚ × Option ℚ)
    (h : flagOf p = true) : rebinPix flux p = none := by
  rcases p with ⟨a, b⟩
  match a, b with
  | none, none => rfl
  | none, some b => rfl
  | some a, none => rfl
  | some a, some b => simp [flagOf] at h

theorem rebinMaskPix_flagged (mask : List Bool) (p : Option ℚ × Option ℚ)
    (h : flagOf p = true) : rebinMaskPix mask p = false := by
  rcases p with ⟨a, b⟩
  match a, b with
  | none, none => rfl
  | none, some b => rfl
  | some a, none => rfl
  | some a, some b => simp [flagOf] at h

theorem headD_eq_getD {α : Type} (l : List α) (d : α) (h : 0 < l.length) :
    l.headD d = l.getD 0 d := by
  match l with
  | a :: rest => rfl

theorem getLastD_eq_getD {α : Type} (l : List α) (d : α) (h : 0 < l.length) :
    l.getLastD d = l.getD (l.length - 1) d := by
  rw [getLastD_eq_getElem l d h, List.getD_eq_getElem _ _ (by omega)]

theorem getD_replicate_one {N : ℕ} {j : ℕ} (hj : j < N) :
    (List.replicate N (1 : ℚ)).getD j 0 = 1 := by
  rw [List.getD_eq_getElem _ _ (by simp; omega)]
  exact List.getElem_replicate ..

theorem pySlice_unit (l : List ℚ) (i : ℕ) (hi : i < l.length) :
    pySlice l (i : ℤ) ((i + 1 : ℕ) : ℤ) = [l.getD i 0] := by
  unfold pySlice
  have h1 : (((i + 1 : ℕ) : ℤ) - (i : ℤ)).toNat = 1 := by
    push_cast
    omega
  rw [h1, Int.toNat_natCast, List.drop_eq_getElem_cons hi,
    List.getD_eq_getElem _ _ hi]
  rfl

theorem rebinPix_unit (flux : List ℚ) (i : ℕ) (hi : i < flux.length) :
    rebinPix flux (some ((i : ℕ) : ℚ), some ((i + 1 : ℕ) : ℚ)) =
      some (flux.getD i 0) := by
  have hstep : rebinPix flux (some ((i : ℕ) : ℚ), some ((i + 1 : ℕ) : ℚ)) =
      some ((pySlice flux ⌊((i : ℕ) : ℚ)⌋ ⌊((i + 1 : ℕ) : ℚ)⌋).sum
        - pyGet flux 0 ⌊((i : ℕ) : ℚ)⌋ * (((i : ℕ) : ℚ) - (⌊((i : ℕ) : ℚ)⌋ : ℚ))
        + pyGet flux 0 ⌊((i + 1 : ℕ) : ℚ)⌋
          * (((i + 1 : ℕ) : ℚ) - (⌊((i + 1 : ℕ) : ℚ)⌋ : ℚ))) := rfl
  rw [hstep, Int.floor_natCast, Int.floor_natCast, pySlice_unit flux i hi]
  have : ([flux.getD i 0]).sum = flux.getD i 0 := by simp
  rw [this]
  push_cast
  ring_nf

theorem rebinPix_ones {N : ℕ} {a b : ℚ} (h0 : 0 ≤ a) (hab : a ≤ b)
    (hbN : b ≤ (N : ℚ) - 1) :
    rebinPix (List.replicate N 1) (some a, some b) = some (b - a) := by
  have hfa0 : 0 ≤ ⌊a⌋ := Int.floor_nonneg.mpr h0
  have hfb0 : 0 ≤ ⌊b⌋ := Int.floor_nonneg.mpr (le_trans h0 hab)
  have hfab : ⌊a⌋ ≤ ⌊b⌋ := Int.floor_mono hab
  have hbN1 : ⌊b⌋ ≤ (N : ℤ) - 1 := by
    have h1 : ⌊b⌋ ≤ ⌊((N : ℚ) - 1)⌋ := Int.floor_mono hbN
    have h2 : ((N : ℚ) - 1) = (((N : ℤ) - 1 : ℤ) : ℚ) := by push_cast; ring
    rw [h2, Int.floor_intCast] at h1
    exact h1
  have hstep : rebinPix (List.replicate N 1) (some a, some b) =
      some ((pySlice (List.replicate N 1) ⌊a⌋ ⌊b⌋).sum
        - pyGet (List.replicate N 1) 0 ⌊a⌋ * (a - (⌊a⌋ : ℚ))
        + pyGet (List.replicate N 1) 0 ⌊b⌋ * (b - (⌊b⌋ : ℚ))) := rfl
  rw [hstep]
  have hslice : (pySlice (List.replicate N (1 : ℚ)) ⌊a⌋ ⌊b⌋).sum
      = ((⌊b⌋ - ⌊a⌋ : ℤ).toNat : ℚ) := by
    unfold pySlice
    rw [List.drop_replicate, List.take_replicate]
    have hm : (⌊b⌋ - ⌊a⌋).toNat ⊓ (N - ⌊a⌋.toNat) = (⌊b⌋ - ⌊a⌋).toNat := by omega
    rw [hm, List.sum_replicate]
    simp
  rw [hslice]
  have hga : pyGet (List.replicate N (1 : ℚ)) 0 ⌊a⌋ = 1 := by
    unfold pyGet
    exact getD_replicate_one (by omega)
  have hgb : pyGet (List.replicate N (1 : ℚ)) 0 ⌊b⌋ = 1 := by
    unfold pyGet
    exact getD_replicate_one (by omega)
  rw [hga, hgb]
  have hcast : (((⌊b⌋ - ⌊a⌋ : ℤ).toNat : ℕ) : ℚ) = ((⌊b⌋ : ℚ) - (⌊a⌋ : ℚ)) := by
    have : ((⌊b⌋ - ⌊a⌋ : ℤ).toNat : ℤ) = ⌊b⌋ - ⌊a⌋ := Int.toNat_of_nonneg (by omega)
    exact_mod_cast congrArg (fun z : ℤ => (z : ℚ)) this
  rw [hcast]
  ring_nf

theorem pairAdj_diff_sum (l : List ℚ) :
    ((pairAdj l).map (fun p => p.2 - p.1)).sum = l.getLastD 0 - l.headD 0 := by
  match l with
  | [] => simp [pairAdj]
  | [x] => simp [pairAdj]
  | a :: b :: rest =>
    have ih := pairAdj_diff_sum (b :: rest)
    show ((b - a) :: ((pairAdj (b :: rest)).map fun p => p.2 - p.1)).sum = _
    rw [List.sum_cons, ih]
    rw [show (a :: b :: rest).getLastD 0 = (b :: rest).getLastD 0 from by
      rw [List.getLastD_cons, List.getLastD_cons, List.getLastD_cons]]
    simp only [List.headD_cons]
    ring

theorem headD_map_getD (ps : List (Option ℚ)) (hne : ps ≠ []) :
    (ps.map (fun o => o.getD 0)).headD 0 = (ps.headD none).getD 0 := by
  match ps with
  | p :: rest => rfl

theorem getLastD_map_getD (ps : List (Option ℚ)) (hne : ps ≠ []) :
    (ps.map (fun o => o.getD 0)).getLastD 0 = (ps.getLastD none).getD 0 := by
  have h : 0 < ps.length := List.length_pos.mpr hne
  rw [getLastD_eq_getElem _ _ (by simp [h] : 0 < (ps.map fun o => o.getD 0).length),
    getLastD_eq_getElem _ _ h]
  simp only [List.length_map]
  rw [List.getElem_map]

theorem pySlice_any_iff (l : List Bool) (a b : ℤ) (ha : 0 ≤ a) (hab : a ≤ b)
    (hb : b.toNat ≤ l.length) :
    ((pySlice l a b).any id = true ↔
      ∃ j : ℕ, a.toNat ≤ j ∧ j < b.toNat ∧ l.getD j false = true) := by
  have hba : (b - a).toNat = b.toNat - a.toNat := by omega
  unfold pySlice
  rw [List.any_eq_true]
  constructor
  · rintro ⟨x, hx, hid⟩
    obtain ⟨k, hk, rfl⟩ := List.getElem_of_mem hx
    have hklen : k < (b - a).toNat ⊓ (l.length - a.toNat) := by
      have := hk
      simp only [List.length_take, List.length_drop] at this
      exact this
    refine ⟨a.toNat + k, by omega, by omega, ?_⟩
    have hdk : k < (l.drop a.toNat).length := by
      simp only [List.length_drop]
      omega
    have h1 : ((l.drop a.toNat).take (b - a).toNat)[k] = (l.drop a.toNat)[k] :=
      List.getElem_take ..
    have hak : a.toNat + k < l.length := by omega
    have h2 : (l.drop a.toNat)[k] = l[a.toNat + k] :=
      List.getElem_drop ..
    rw [List.getD_eq_getElem _ _ (by omega : a.toNat + k < l.length)]
    rw [h1, h2] at hid
    simpa using hid
  · rintro ⟨j, hj1, hj2, hj3⟩
    have hjlen : j < l.length := by omega
    have hklen : j - a.toNat < ((l.drop a.toNat).take (b - a).toNat).length := by
      simp only [List.length_take, List.length_drop]
      omega
    have hdlen : j - a.toNat < (l.drop a.toNat).length := by
      simp only [List.length_drop]
      omega
    refine ⟨((l.drop a.toNat).take (b - a).toNat)[j - a.toNat], List.getElem_mem _, ?_⟩
    have h1 : ((l.drop a.toNat).take (b - a).toNat)[j - a.toNat] =
        (l.drop a.toNat)[j - a.toNat] := List.getElem_take ..
    have haj : a.toNat + (j - a.toNat) < l.length := by omega
    have h2 : (l.drop a.toNat)[j - a.toNat] =
        l[a.toNat + (j - a.toNat)] := List.getElem_drop ..
    rw [List.getD_eq_getElem _ _ hjlen] at hj3
    rw [h1, h2]
    simp only [id]
    have hj : a.toNat + (j - a.toNat) = j := by omega
    rw [show l[a.toNat + (j - a.toNat)] = l[j] from by congr 1]
    exact hj3

theorem newEdgePos_self_getD {wave : List ℚ} (hc : List.Chain' (· < ·) wave)
    (hw : 2 ≤ wave.length) {i : ℕ} (hi : i < wave.length + 1) :
    (newEdgePos wave wave).getD i none =
      if i < wave.length then some ((i : ℕ) : ℚ) else none := by
  rw [newEdgePos_getD hw hi]
  by_cases h : i < wave.length
  · rw [if_pos h]
    have hnd := nodes_getD hw h
    rw [← hnd]
    have hlen : i < ((center2edge wave).dropLast).length := by
      rw [nodes_length hw]
      exact h
    rw [List.getD_eq_getElem _ _ hlen]
    exact interpIndex_node (nodes_chain hc hw) i hlen
  · rw [if_neg h]
    have hiN : i = wave.length := by omega
    subst hiN
    apply interpIndex_none_of_gt
    have hNlen : (center2edge wave).length = wave.length + 1 := center2edge_length hw
    have hn0 : 0 < ((center2edge wave).dropLast).length := by
      rw [nodes_length hw]
      omega
    rw [getLastD_eq_getD _ _ hn0, nodes_length hw, nodes_getD hw (by omega)]
    exact chain'_getD_lt (chain'_center2edge hc hw) (by omega) (by omega)

/-! ### Claim theorems -/

/-- C1 (counterexample): for `wave = [0..9]`, `flux` ten ones and
`newWave = [0.5, 2.5, 4.5, 6.5, 8.5]`, the claim says every one of the
five new pixels (including the last) gets the value 2; in fact the last
pixel's upper edge (9.5) lies beyond the last interpolation node (8.5),
so the last rebinned value is NaN (`none`), not 2. -/
theorem rebin_example_last_pixel_not_two :
    (rebinFlux [0, 1, 2, 3, 4, 5, 6, 7, 8, 9] (List.replicate 10 1)
      [1/2, 5/2, 9/2, 13/2, 17/2]).getD 4 (some 0) = none := by
  norm_num [rebinFlux, posPairs, pairAdj, newEdgePos, center2edge, edgesAux,
    interpIndex, interpSeg, rebinPix, pySlice, pyGet, List.getLastD,
    List.replicate, Int.toNat]

/-- C1 (amended): for `wave = [0..9]`, `flux` ten ones and
`newWave = [0.5, 2.5, 4.5, 6.5, 8.5]`, `rebin` returns flux
`[2, 2, 2, 2, NaN]`: the first four new pixels get exactly 2, and the
last pixel is flagged out-of-coverage and gets NaN. -/
theorem rebin_example_values :
    rebinFlux [0, 1, 2, 3, 4, 5, 6, 7, 8, 9] (List.replicate 10 1)
      [1/2, 5/2, 9/2, 13/2, 17/2] = [some 2, some 2, some 2, some 2, none] := by
  norm_num [rebinFlux, posPairs, pairAdj, newEdgePos, center2edge, edgesAux,
    interpIndex, interpSeg, rebinPix, pySlice, pyGet, List.getLastD,
    List.replicate, Int.toNat]

/-- C2 (counterexample): rebinning `flux = [5, 6, 7]` from
`wave = [0, 1, 2]` onto `newWave = wave` does NOT return every original
flux value: the last pixel's upper edge is the outermost old edge, which
lies beyond the interpolation nodes, so the last element is NaN. -/
theorem rebin_roundtrip_last_pixel_nan :
    (rebinFlux [0, 1, 2] [5, 6, 7] [0, 1, 2]).getD 2 (some 0) = none := by
  norm_num [rebinFlux, posPairs, pairAdj, newEdgePos, center2edge, edgesAux,
    interpIndex, interpSeg, rebinPix, pySlice, pyGet, List.getLastD, Int.toNat]

/-- C2 (amended): for every strictly increasing `wave` of length ≥ 2 and
every `flux` of the same length, rebinning onto `newWave = wave` returns
the original flux value exactly at every pixel except the last, and NaN
at the last pixel. -/
theorem rebin_roundtrip_amended {wave flux : List ℚ}
    (hc : List.Chain' (· < ·) wave) (hw : 2 ≤ wave.length)
    (hf : flux.length = wave.length) :
    (rebinFlux wave flux wave).length = wave.length ∧
    (∀ i, i < wave.length - 1 →
      (rebinFlux wave flux wave).getD i (some 0) = some (flux.getD i 0)) ∧
    (rebinFlux wave flux wave).getD (wave.length - 1) (some 0) = none := by
  refine ⟨rebinFlux_length hw, ?_, ?_⟩
  · intro i hi
    have hiN : i < wave.length := by omega
    have hgd : (rebinFlux wave flux wave).getD i (some 0) =
        (rebinFlux wave flux wave).getD i none := by
      rw [List.getD_eq_getElem _ _ (by rw [rebinFlux_length hw]; omega),
        List.getD_eq_getElem _ _ (by rw [rebinFlux_length hw]; omega)]
    rw [hgd, rebinFlux_getD hw hiN, posPairs_getD hw hiN,
      newEdgePos_self_getD hc hw (by omega), newEdgePos_self_getD hc hw (by omega),
      if_pos hiN, if_pos (by omega)]
    exact rebinPix_unit flux i (by omega)
  · have hiN : wave.length - 1 < wave.length := by omega
    have hgd : (rebinFlux wave flux wave).getD (wave.length - 1) (some 0) =
        (rebinFlux wave flux wave).getD (wave.length - 1) none := by
      rw [List.getD_eq_getElem _ _ (by rw [rebinFlux_length hw]; omega),
        List.getD_eq_getElem _ _ (by rw [rebinFlux_length hw]; omega)]
    rw [hgd, rebinFlux_getD hw hiN, posPairs_getD hw hiN,
      newEdgePos_self_getD hc hw (by omega), newEdgePos_self_getD hc hw (by omega),
      if_pos hiN, if_neg (by omega)]
    rfl

/-- C2 (witness): the amended round-trip theorem applied at
`wave = [0, 1, 2]`, `flux = [5, 6, 7]`. -/
theorem rebin_roundtrip_amended_witness :
    (List.Chain' (· < ·) [(0 : ℚ), 1, 2] ∧ 2 ≤ ([(0 : ℚ), 1, 2]).length ∧
      ([(5 : ℚ), 6, 7]).length = ([(0 : ℚ), 1, 2]).length) ∧
    ((rebinFlux [(0 : ℚ), 1, 2] [5, 6, 7] [(0 : ℚ), 1, 2]).length =
        ([(0 : ℚ), 1, 2]).length ∧
      (∀ i, i < ([(0 : ℚ), 1, 2]).length - 1 →
        (rebinFlux [(0 : ℚ), 1, 2] [5, 6, 7] [(0 : ℚ), 1, 2]).getD i (some 0) =
          some (([(5 : ℚ), 6, 7]).getD i 0)) ∧
      (rebinFlux [(0 : ℚ), 1, 2] [5, 6, 7] [(0 : ℚ), 1, 2]).getD
        (([(0 : ℚ), 1, 2]).length - 1) (some 0) = none) := by
  have h1 : List.Chain' (· < ·) [(0 : ℚ), 1, 2] := by
    norm_num [List.chain'_cons, List.chain'_singleton]
  have h2 : 2 ≤ ([(0 : ℚ), 1, 2]).length := by norm_num
  have h3 : ([(5 : ℚ), 6, 7]).length = ([(0 : ℚ), 1, 2]).length := by norm_num
  exact ⟨⟨h1, h2, h3⟩, rebin_roundtrip_amended h1 h2 h3⟩

/-- C3: the edge-to-index mapping interpolates over the first N old edges
(the dropLast of the N+1 edges) paired with indices 0..N−1; a queried
position outside `[edge[0], edge[N-1]]` maps to NaN (`none`) rather than
raising or clamping, a position inside maps to a value; and a new pixel
is flagged invalid exactly when at least one of its two mapped edge
positions is NaN. -/
theorem gridmapper_nodes_nan_flags {wave : List ℚ}
    (hc : List.Chain' (· < ·) wave) (hw : 2 ≤ wave.length) :
    ((center2edge wave).dropLast).length = wave.length ∧
    (∀ i, i < wave.length →
      interpIndex ((center2edge wave).dropLast)
        (((center2edge wave).dropLast).getD i 0) = some ((i : ℕ) : ℚ)) ∧
    (∀ t : ℚ, t < ((center2edge wave).dropLast).headD 0 →
      interpIndex ((center2edge wave).dropLast) t = none) ∧
    (∀ t : ℚ, ((center2edge wave).dropLast).getLastD 0 < t →
      interpIndex ((center2edge wave).dropLast) t = none) ∧
    (∀ t : ℚ, ((center2edge wave).dropLast).headD 0 ≤ t →
      t ≤ ((center2edge wave).dropLast).getLastD 0 →
      (interpIndex ((center2edge wave).dropLast) t).isSome = true) ∧
    (∀ wave_new : List ℚ, 2 ≤ wave_new.length → ∀ i, i < wave_new.length →
      ((flags wave wave_new).getD i true = true ↔
        (newEdgePos wave wave_new).getD i none = none ∨
        (newEdgePos wave wave_new).getD (i + 1) none = none)) := by
  have hne : (center2edge wave).dropLast ≠ [] := by
    intro h
    have := nodes_length hw
    rw [h] at this
    simp at this
    omega
  refine ⟨nodes_length hw, ?_, ?_, ?_, ?_, ?_⟩
  · intro i hi
    have hlen : i < ((center2edge wave).dropLast).length := by
      rw [nodes_length hw]
      exact hi
    rw [List.getD_eq_getElem _ _ hlen]
    exact interpIndex_node (nodes_chain hc hw) i hlen
  · intro t ht
    exact interpIndex_none_of_lt ht
  · intro t ht
    exact interpIndex_none_of_gt ht
  · intro t h1 h2
    exact interpIndex_isSome_of_mem hne h1 h2
  · intro wave_new h2 i hi
    rw [flags_getD h2 hi, flagOf_true_iff, posPairs_getD h2 hi]

/-- C3 (witness): the mapping/flag theorem applied at `wave = [0, 1, 2]`. -/
theorem gridmapper_nodes_nan_flags_witness :
    (List.Chain' (· < ·) [(0 : ℚ), 1, 2] ∧ 2 ≤ ([(0 : ℚ), 1, 2]).length) ∧
    (((center2edge [(0 : ℚ), 1, 2]).dropLast).length = ([(0 : ℚ), 1, 2]).length ∧
      (∀ i, i < ([(0 : ℚ), 1, 2]).length →
        interpIndex ((center2edge [(0 : ℚ), 1, 2]).dropLast)
          (((center2edge [(0 : ℚ), 1, 2]).dropLast).getD i 0) = some ((i : ℕ) : ℚ)) ∧
      (∀ t : ℚ, t < ((center2edge [(0 : ℚ), 1, 2]).dropLast).headD 0 →
        interpIndex ((center2edge [(0 : ℚ), 1, 2]).dropLast) t = none) ∧
      (∀ t : ℚ, ((center2edge [(0 : ℚ), 1, 2]).dropLast).getLastD 0 < t →
        interpIndex ((center2edge [(0 : ℚ), 1, 2]).dropLast) t = none) ∧
      (∀ t : ℚ, ((center2edge [(0 : ℚ), 1, 2]).dropLast).headD 0 ≤ t →
        t ≤ ((center2edge [(0 : ℚ), 1, 2]).dropLast).getLastD 0 →
        (interpIndex ((center2edge [(0 : ℚ), 1, 2]).dropLast) t).isSome = true) ∧
      (∀ wave_new : List ℚ, 2 ≤ wave_new.length → ∀ i, i < wave_new.length →
        ((flags [(0 : ℚ), 1, 2] wave_new).getD i true = true ↔
          (newEdgePos [(0 : ℚ), 1, 2] wave_new).getD i none = none ∨
          (newEdgePos [(0 : ℚ), 1, 2] wave_new).getD (i + 1) none = none))) := by
  have h1 : List.Chain' (· < ·) [(0 : ℚ), 1, 2] := by
    norm_num [List.chain'_cons, List.chain'_singleton]
  have h2 : 2 ≤ ([(0 : ℚ), 1, 2]).length := by norm_num
  exact ⟨⟨h1, h2⟩, gridmapper_nodes_nan_flags h1 h2⟩

/-- C4: for every valid (unflagged) new pixel with mapped edge positions
`(lo, hi)`, the rebinned flux is
`sum(flux[⌊lo⌋:⌊hi⌋]) − flux[⌊lo⌋]·(lo−⌊lo⌋) + flux[⌊hi⌋]·(hi−⌊hi⌋)`
(half-open slice for the bulk sum), and the rebinned flux error is the
square root of the same formula applied to the squared error values. -/
theorem rebin_valid_pixel_formula {wave flux flux_err wave_new : List ℚ}
    (h2 : 2 ≤ wave_new.length) {i : ℕ} (hin : i < wave_new.length) {lo hi : ℚ}
    (hp : (posPairs wave wave_new).getD i (none, none) = (some lo, some hi)) :
    (rebinFlux wave flux wave_new).getD i none =
      some ((pySlice flux ⌊lo⌋ ⌊hi⌋).sum
        - pyGet flux 0 ⌊lo⌋ * (lo - (⌊lo⌋ : ℚ))
        + pyGet flux 0 ⌊hi⌋ * (hi - (⌊hi⌋ : ℚ))) ∧
    (rebinFluxErr wave flux_err wave_new).getD i none =
      some (Real.sqrt (((pySlice (flux_err.map fun e => e * e) ⌊lo⌋ ⌊hi⌋).sum
        - pyGet (flux_err.map fun e => e * e) 0 ⌊lo⌋ * (lo - (⌊lo⌋ : ℚ))
        + pyGet (flux_err.map fun e => e * e) 0 ⌊hi⌋ * (hi - (⌊hi⌋ : ℚ)) : ℚ) : ℝ)) := by
  constructor
  · rw [rebinFlux_getD h2 hin, hp]
    rfl
  · rw [rebinFluxErr_getD h2 hin, hp]
    rfl

/-- C4 (witness): the valid-pixel formula applied at `wave = [0, 1, 2]`,
`newWave = [0, 1, 2]`, pixel 0, whose mapped edge positions are (0, 1). -/
theorem rebin_valid_pixel_formula_witness :
    (2 ≤ ([(0 : ℚ), 1, 2]).length ∧ (0 : ℕ) < ([(0 : ℚ), 1, 2]).length ∧
      (posPairs [(0 : ℚ), 1, 2] [(0 : ℚ), 1, 2]).getD 0 (none, none) =
        (some 0, some 1)) ∧
    ((rebinFlux [(0 : ℚ), 1, 2] [5, 6, 7] [(0 : ℚ), 1, 2]).getD 0 none =
      some ((pySlice [(5 : ℚ), 6, 7] ⌊(0 : ℚ)⌋ ⌊(1 : ℚ)⌋).sum
        - pyGet [(5 : ℚ), 6, 7] 0 ⌊(0 : ℚ)⌋ * ((0 : ℚ) - (⌊(0 : ℚ)⌋ : ℚ))
        + pyGet [(5 : ℚ), 6, 7] 0 ⌊(1 : ℚ)⌋ * ((1 : ℚ) - (⌊(1 : ℚ)⌋ : ℚ))) ∧
    (rebinFluxErr [(0 : ℚ), 1, 2] [1, 1, 2] [(0 : ℚ), 1, 2]).getD 0 none =
      some (Real.sqrt
        (((pySlice (([(1 : ℚ), 1, 2]).map fun e => e * e) ⌊(0 : ℚ)⌋ ⌊(1 : ℚ)⌋).sum
          - pyGet (([(1 : ℚ), 1, 2]).map fun e => e * e) 0 ⌊(0 : ℚ)⌋
            * ((0 : ℚ) - (⌊(0 : ℚ)⌋ : ℚ))
          + pyGet (([(1 : ℚ), 1, 2]).map fun e => e * e) 0 ⌊(1 : ℚ)⌋
            * ((1 : ℚ) - (⌊(1 : ℚ)⌋ : ℚ)) : ℚ) : ℝ))) := by
  have h2 : 2 ≤ ([(0 : ℚ), 1, 2]).length := by norm_num
  have hin : (0 : ℕ) < ([(0 : ℚ), 1, 2]).length := by norm_num
  have hp : (posPairs [(0 : ℚ), 1, 2] [(0 : ℚ), 1, 2]).getD 0 (none, none) =
      (some 0, some 1) := by
    norm_num [posPairs, pairAdj, newEdgePos, center2edge, edgesAux,
      interpIndex, interpSeg, List.getLastD]
  exact ⟨⟨h2, hin, hp⟩, rebin_valid_pixel_formula h2 hin hp⟩

/-- C5: a new pixel flagged invalid gets NaN flux and NaN flux error and
keeps the default mask value false, and processing continues: all three
output arrays still have one entry per new pixel. -/
theorem rebin_flagged_pixel_outputs {wave flux flux_err wave_new : List ℚ}
    {mask : List Bool} (h2 : 2 ≤ wave_new.length) {i : ℕ}
    (hin : i < wave_new.length)
    (hflag : flagOf ((posPairs wave wave_new).getD i (none, none)) = true) :
    (rebinFlux wave flux wave_new).getD i (some 0) = none ∧
    (rebinFluxErr wave flux_err wave_new).getD i (some 0) = none ∧
    (rebinMask wave mask wave_new).getD i true = false ∧
    (rebinFlux wave flux wave_new).length = wave_new.length ∧
    (rebinFluxErr wave flux_err wave_new).length = wave_new.length ∧
    (rebinMask wave mask wave_new).length = wave_new.length := by
  refine ⟨?_, ?_, ?_, rebinFlux_length h2, rebinFluxErr_length h2,
    rebinMask_length h2⟩
  · have hgd : (rebinFlux wave flux wave_new).getD i (some 0) =
        (rebinFlux wave flux wave_new).getD i none := by
      rw [List.getD_eq_getElem _ _ (by rw [rebinFlux_length h2]; omega),
        List.getD_eq_getElem _ _ (by rw [rebinFlux_length h2]; omega)]
    rw [hgd, rebinFlux_getD h2 hin]
    exact rebinPix_flagged flux _ hflag
  · have hgd : (rebinFluxErr wave flux_err wave_new).getD i (some 0) =
        (rebinFluxErr wave flux_err wave_new).getD i none := by
      rw [List.getD_eq_getElem _ _ (by rw [rebinFluxErr_length h2]; omega),
        List.getD_eq_getElem _ _ (by rw [rebinFluxErr_length h2]; omega)]
    rw [hgd, rebinFluxErr_getD h2 hin,
      rebinPix_flagged (flux_err.map fun e => e * e) _ hflag]
    rfl
  · rw [rebinMask_getD h2 hin true]
    exact rebinMaskPix_flagged mask _ hflag

/-- C5 (witness): the flagged-pixel theorem applied at `wave = [0, 1, 2]`,
`newWave = [0, 1, 2]`, pixel 2 (whose upper edge maps to NaN). -/
theorem rebin_flagged_pixel_outputs_witness :
    (2 ≤ ([(0 : ℚ), 1, 2]).length ∧ (2 : ℕ) < ([(0 : ℚ), 1, 2]).length ∧
      flagOf ((posPairs [(0 : ℚ), 1, 2] [(0 : ℚ), 1, 2]).getD 2 (none, none)) = true) ∧
    ((rebinFlux [(0 : ℚ), 1, 2] [5, 6, 7] [(0 : ℚ), 1, 2]).getD 2 (some 0) = none ∧
      (rebinFluxErr [(0 : ℚ), 1, 2] [1, 1, 2] [(0 : ℚ), 1, 2]).getD 2 (some 0) = none ∧
      (rebinMask [(0 : ℚ), 1, 2] [false, false, true] [(0 : ℚ), 1, 2]).getD 2 true
        = false ∧
      (rebinFlux [(0 : ℚ), 1, 2] [5, 6, 7] [(0 : ℚ), 1, 2]).length =
        ([(0 : ℚ), 1, 2]).length ∧
      (rebinFluxErr [(0 : ℚ), 1, 2] [1, 1, 2] [(0 : ℚ), 1, 2]).length =
        ([(0 : ℚ), 1, 2]).length ∧
      (rebinMask [(0 : ℚ), 1, 2] [false, false, true] [(0 : ℚ), 1, 2]).length =
        ([(0 : ℚ), 1, 2]).length) := by
  have h2 : 2 ≤ ([(0 : ℚ), 1, 2]).length := by norm_num
  have hin : (2 : ℕ) < ([(0 : ℚ), 1, 2]).length := by norm_num
  have hflag : flagOf ((posPairs [(0 : ℚ), 1, 2] [(0 : ℚ), 1, 2]).getD 2
      (none, none)) = true := by
    norm_num [posPairs, pairAdj, newEdgePos, center2edge, edgesAux,
      interpIndex, interpSeg, List.getLastD, flagOf]
  exact ⟨⟨h2, hin, hflag⟩, rebin_flagged_pixel_outputs h2 hin hflag⟩

/-- C6: for every valid new pixel with mapped positions `(lo, hi)`, the
output mask is the logical OR of the old mask values over the inclusive
index range `⌊lo⌋ .. ⌊hi⌋` (the code slices `mask[⌊lo⌋ : ⌊hi⌋ + 1]`):
true iff at least one old pixel in that range is masked. -/
theorem rebin_mask_inclusive_or {wave wave_new : List ℚ} {mask : List Bool}
    (hc : List.Chain' (· < ·) wave) (hw : 2 ≤ wave.length)
    (hcn : List.Chain' (· < ·) wave_new) (h2 : 2 ≤ wave_new.length)
    (hm : mask.length = wave.length) {i : ℕ} (hin : i < wave_new.length)
    {lo hi : ℚ}
    (hp : (posPairs wave wave_new).getD i (none, none) = (some lo, some hi)) :
    (rebinMask wave mask wave_new).getD i false =
      (pySlice mask ⌊lo⌋ (⌊hi⌋ + 1)).any id ∧
    ((rebinMask wave mask wave_new).getD i false = true ↔
      ∃ j : ℕ, ⌊lo⌋.toNat ≤ j ∧ j ≤ ⌊hi⌋.toNat ∧ mask.getD j false = true) := by
  obtain ⟨b1, b2, b3, b4⟩ := posPairs_some_bounds hc hw h2 hin hp
  have hmono : lo ≤ hi := posPairs_some_mono hc hw hcn h2 hin hp
  have hfl0 : 0 ≤ ⌊lo⌋ := Int.floor_nonneg.mpr b1
  have hfh0 : 0 ≤ ⌊hi⌋ := Int.floor_nonneg.mpr b3
  have hff : ⌊lo⌋ ≤ ⌊hi⌋ := Int.floor_mono hmono
  have hfhN : ⌊hi⌋ ≤ (wave.length : ℤ) - 1 := by
    have hfm := Int.floor_mono b4
    have hcast : ((wave.length : ℚ) - 1) = (((wave.length : ℤ) - 1 : ℤ) : ℚ) := by
      push_cast
      ring
    rw [hcast, Int.floor_intCast] at hfm
    exact hfm
  have hmain : (rebinMask wave mask wave_new).getD i false =
      (pySlice mask ⌊lo⌋ (⌊hi⌋ + 1)).any id := by
    rw [rebinMask_getD h2 hin false, hp]
    rfl
  refine ⟨hmain, ?_⟩
  rw [hmain, pySlice_any_iff mask ⌊lo⌋ (⌊hi⌋ + 1) hfl0 (by omega) (by omega)]
  constructor
  · rintro ⟨j, hj1, hj2, hj3⟩
    exact ⟨j, hj1, by omega, hj3⟩
  · rintro ⟨j, hj1, hj2, hj3⟩
    exact ⟨j, hj1, by omega, hj3⟩

/-- C6 (witness): the inclusive-OR mask theorem applied at
`wave = newWave = [0, 1, 2]`, `mask = [false, true, false]`, pixel 0,
whose mapped positions are (0, 1). -/
theorem rebin_mask_inclusive_or_witness :
    (List.Chain' (· < ·) [(0 : ℚ), 1, 2] ∧ 2 ≤ ([(0 : ℚ), 1, 2]).length ∧
      ([false, true, false]).length = ([(0 : ℚ), 1, 2]).length ∧
      (0 : ℕ) < ([(0 : ℚ), 1, 2]).length ∧
      (posPairs [(0 : ℚ), 1, 2] [(0 : ℚ), 1, 2]).getD 0 (none, none) =
        (some 0, some 1)) ∧
    ((rebinMask [(0 : ℚ), 1, 2] [false, true, false] [(0 : ℚ), 1, 2]).getD 0 false =
      (pySlice [false, true, false] ⌊(0 : ℚ)⌋ (⌊(1 : ℚ)⌋ + 1)).any id ∧
    ((rebinMask [(0 : ℚ), 1, 2] [false, true, false] [(0 : ℚ), 1, 2]).getD 0 false
        = true ↔
      ∃ j : ℕ, ⌊(0 : ℚ)⌋.toNat ≤ j ∧ j ≤ ⌊(1 : ℚ)⌋.toNat ∧
        ([false, true, false]).getD j false = true)) := by
  have h1 : List.Chain' (· < ·) [(0 : ℚ), 1, 2] := by
    norm_num [List.chain'_cons, List.chain'_singleton]
  have h2 : 2 ≤ ([(0 : ℚ), 1, 2]).length := by norm_num
  have h3 : ([false, true, false]).length = ([(0 : ℚ), 1, 2]).length := by norm_num
  have h4 : (0 : ℕ) < ([(0 : ℚ), 1, 2]).length := by norm_num
  have hp : (posPairs [(0 : ℚ), 1, 2] [(0 : ℚ), 1, 2]).getD 0 (none, none) =
      (some 0, some 1) := by
    norm_num [posPairs, pairAdj, newEdgePos, center2edge, edgesAux,
      interpIndex, interpSeg, List.getLastD]
  exact ⟨⟨h1, h2, h3, h4, hp⟩, rebin_mask_inclusive_or h1 h2 h1 h2 h3 h4 hp⟩

/-- C8: supplying a flux, flux-error, or mask array whose length differs
from the old wave array's length makes `rebin` fail with an assertion
error and produce no result at all. -/
theorem rebin_shape_mismatch_error {wave wave_new : List ℚ}
    {flux flux_err : Option (List ℚ)} {mask : Option (List Bool)}
    (h : (flux.any fun f => f.length != wave.length) = true ∨
         (flux_err.any fun f => f.length != wave.length) = true ∨
         (mask.any fun m => m.length != wave.length) = true) :
    ∃ msg : String, rebin wave flux flux_err mask wave_new = Except.error msg := by
  unfold rebin
  by_cases h1 : (flux.any fun f => f.length != wave.length) = true
  · rw [if_pos h1]
    exact ⟨_, rfl⟩
  · rw [if_neg h1]
    by_cases hmid : (flux_err.any fun f => f.length != wave.length) = true
    · rw [if_pos hmid]
      exact ⟨_, rfl⟩
    · rw [if_neg hmid]
      have h3 : (mask.any fun m => m.length != wave.length) = true := by tauto
      rw [if_pos h3]
      exact ⟨_, rfl⟩

/-- C8 (witness): a flux array of length 2 against a wave of length 3
makes `rebin` return an error. -/
theorem rebin_shape_mismatch_error_witness :
    (((some [(1 : ℚ), 1] : Option (List ℚ)).any
        fun f => f.length != ([(0 : ℚ), 1, 2]).length) = true ∨
      ((none : Option (List ℚ)).any
        fun f => f.length != ([(0 : ℚ), 1, 2]).length) = true ∨
      ((none : Option (List Bool)).any
        fun m => m.length != ([(0 : ℚ), 1, 2]).length) = true) ∧
    ∃ msg : String, rebin [(0 : ℚ), 1, 2] (some [1, 1]) none none [(0 : ℚ), 1, 2] =
      Except.error msg := by
  have h : ((some [(1 : ℚ), 1] : Option (List ℚ)).any
      fun f => f.length != ([(0 : ℚ), 1, 2]).length) = true := by decide
  exact ⟨Or.inl h, rebin_shape_mismatch_error (Or.inl h)⟩

/-- C10: for every valid (unflagged) new pixel with mapped positions
`(lo, hi)`, the floored indices `⌊lo⌋` and `⌊hi⌋` lie in
`[0, len(wave) − 1]`, so every access the formulas perform
(`flux[⌊lo⌋]`, `flux[⌊hi⌋]`, the slice `flux[⌊lo⌋:⌊hi⌋]`, and the mask
slice ending at `⌊hi⌋ + 1 ≤ len(wave)`) is within bounds; flagged pixels
never reach this code path (their outputs are produced without any data
access, see the flagged-pixel theorem). -/
theorem rebin_index_safety {wave wave_new : List ℚ}
    (hc : List.Chain' (· < ·) wave) (hw : 2 ≤ wave.length)
    (h2 : 2 ≤ wave_new.length) {i : ℕ} (hin : i < wave_new.length) {lo hi : ℚ}
    (hp : (posPairs wave wave_new).getD i (none, none) = (some lo, some hi)) :
    0 ≤ ⌊lo⌋ ∧ ⌊lo⌋ ≤ (wave.length : ℤ) - 1 ∧ 0 ≤ ⌊hi⌋ ∧
      ⌊hi⌋ ≤ (wave.length : ℤ) - 1 ∧ ⌊hi⌋ + 1 ≤ (wave.length : ℤ) := by
  obtain ⟨b1, b2, b3, b4⟩ := posPairs_some_bounds hc hw h2 hin hp
  have hfl0 : 0 ≤ ⌊lo⌋ := Int.floor_nonneg.mpr b1
  have hfh0 : 0 ≤ ⌊hi⌋ := Int.floor_nonneg.mpr b3
  have hcast : ((wave.length : ℚ) - 1) = (((wave.length : ℤ) - 1 : ℤ) : ℚ) := by
    push_cast
    ring
  have hflN : ⌊lo⌋ ≤ (wave.length : ℤ) - 1 := by
    have hfm := Int.floor_mono b2
    rw [hcast, Int.floor_intCast] at hfm
    exact hfm
  have hfhN : ⌊hi⌋ ≤ (wave.length : ℤ) - 1 := by
    have hfm := Int.floor_mono b4
    rw [hcast, Int.floor_intCast] at hfm
    exact hfm
  exact ⟨hfl0, hflN, hfh0, hfhN, by omega⟩

/-- C10 (witness): the index-safety theorem applied at
`wave = newWave = [0, 1, 2]`, pixel 0, mapped positions (0, 1). -/
theorem rebin_index_safety_witness :
    (List.Chain' (· < ·) [(0 : ℚ), 1, 2] ∧ 2 ≤ ([(0 : ℚ), 1, 2]).length ∧
      (0 : ℕ) < ([(0 : ℚ), 1, 2]).length ∧
      (posPairs [(0 : ℚ), 1, 2] [(0 : ℚ), 1, 2]).getD 0 (none, none) =
        (some 0, some 1)) ∧
    (0 ≤ ⌊(0 : ℚ)⌋ ∧ ⌊(0 : ℚ)⌋ ≤ (([(0 : ℚ), 1, 2]).length : ℤ) - 1 ∧
      0 ≤ ⌊(1 : ℚ)⌋ ∧ ⌊(1 : ℚ)⌋ ≤ (([(0 : ℚ), 1, 2]).length : ℤ) - 1 ∧
      ⌊(1 : ℚ)⌋ + 1 ≤ (([(0 : ℚ), 1, 2]).length : ℤ)) := by
  have h1 : List.Chain' (· < ·) [(0 : ℚ), 1, 2] := by
    norm_num [List.chain'_cons, List.chain'_singleton]
  have h2 : 2 ≤ ([(0 : ℚ), 1, 2]).length := by norm_num
  have h4 : (0 : ℕ) < ([(0 : ℚ), 1, 2]).length := by norm_num
  have hp : (posPairs [(0 : ℚ), 1, 2] [(0 : ℚ), 1, 2]).getD 0 (none, none) =
      (some 0, some 1) := by
    norm_num [posPairs, pairAdj, newEdgePos, center2edge, edgesAux,
      interpIndex, interpSeg, List.getLastD]
  exact ⟨⟨h1, h2, h4, hp⟩, rebin_index_safety h1 h2 h2 h4 hp⟩

/-- C7 (counterexample): for `wave = [0..9]`, flux = ten ones and
`newWave = [2, 4, 6]` (all pixels inside coverage, mapped positions
1.5, 3.5, 5.5, 7.5), the width-weighted sum of the rebinned flux is
2·2 + 2·2 + 2·2 = 12, but the new grid's total width is 7 − 1 = 6:
the claimed weighted conservation identity fails. -/
theorem rebin_conservation_weighted_counterexample :
    (∀ p ∈ newEdgePos [(0 : ℚ), 1, 2, 3, 4, 5, 6, 7, 8, 9] [2, 4, 6],
      p.isSome = true) ∧
    ¬ ((List.zipWith (fun f w => f * w)
          ((rebinFlux [(0 : ℚ), 1, 2, 3, 4, 5, 6, 7, 8, 9]
              (List.replicate 10 1) [2, 4, 6]).map fun o => o.getD 0)
          (diffs (center2edge [(2 : ℚ), 4, 6]))).sum =
        (center2edge [(2 : ℚ), 4, 6]).getLastD 0 -
          (center2edge [(2 : ℚ), 4, 6]).headD 0) := by
  constructor
  · intro p hp
    norm_num [newEdgePos, center2edge, edgesAux, interpIndex, interpSeg,
      List.getLastD] at hp
    rcases hp with h | h | h | h <;> rw [h] <;> rfl
  · norm_num [rebinFlux, posPairs, pairAdj, newEdgePos, center2edge, edgesAux,
      interpIndex, interpSeg, rebinPix, pySlice, pyGet, List.getLastD,
      List.replicate, Int.toNat, diffs]

/-- C7 (amended): for a flux array of all ones and a new grid all of
whose edges map inside the old grid's coverage, the plain (unweighted)
sum of the rebinned flux values telescopes to the span of the new grid
in old-pixel-index coordinates: last mapped edge position minus first
mapped edge position.  (The original width-weighted statement is false;
the rebinned values are integrals over pixel index, not densities.) -/
theorem rebin_conservation_index_span {wave wave_new : List ℚ}
    (hc : List.Chain' (· < ·) wave) (hw : 2 ≤ wave.length)
    (hcn : List.Chain' (· < ·) wave_new) (h2 : 2 ≤ wave_new.length)
    (hv : ∀ p ∈ newEdgePos wave wave_new, p.isSome = true) :
    ((rebinFlux wave (List.replicate wave.length 1) wave_new).map
        fun o => o.getD 0).sum =
      ((newEdgePos wave wave_new).getLastD none).getD 0 -
        ((newEdgePos wave wave_new).headD none).getD 0 := by
  set ps := newEdgePos wave wave_new with hps
  set vs := ps.map (fun o => o.getD 0) with hvs
  have hpslen : ps.length = wave_new.length + 1 := newEdgePos_length h2
  have hvslen : vs.length = wave_new.length + 1 := by
    rw [hvs, List.length_map, hpslen]
  have hsome : ∀ j, j < wave_new.length + 1 → ps.getD j none = some (vs.getD j 0) := by
    intro j hj
    have hjlen : j < ps.length := by omega
    have hs := hv _ (List.getElem_mem hjlen)
    have hvj : vs.getD j 0 = (ps[j]).getD 0 := by
      rw [hvs, List.getD_eq_getElem _ _ (by rw [List.length_map]; omega),
        List.getElem_map]
    rw [List.getD_eq_getElem _ _ hjlen, hvj]
    cases hrep : ps[j] with
    | none => rw [hrep] at hs; simp at hs
    | some v => rfl
  have hkey : (rebinFlux wave (List.replicate wave.length 1) wave_new).map
      (fun o => o.getD 0) = (pairAdj vs).map (fun p => p.2 - p.1) := by
    apply List.ext_getElem
    · rw [List.length_map, rebinFlux_length h2, List.length_map, pairAdj_length,
        hvslen]
      omega
    · intro i h1 h1a
      have hiM : i < wave_new.length := by
        rw [List.length_map, rebinFlux_length h2] at h1
        exact h1
      have hpair : (posPairs wave wave_new).getD i (none, none) =
          (some (vs.getD i 0), some (vs.getD (i + 1) 0)) := by
        rw [posPairs_getD h2 hiM, hsome i (by omega), hsome (i + 1) (by omega)]
      obtain ⟨b1, b2, b3, b4⟩ := posPairs_some_bounds hc hw h2 hiM hpair
      have hmono := posPairs_some_mono hc hw hcn h2 hiM hpair
      rw [List.getElem_map, List.getElem_map]
      have hrl : i < (rebinFlux wave (List.replicate wave.length 1) wave_new).length := by
        rw [rebinFlux_length h2]
        omega
      have hpal : i < (pairAdj vs).length := by
        rw [pairAdj_length, hvslen]
        omega
      have hflux : (rebinFlux wave (List.replicate wave.length 1) wave_new)[i] =
          (rebinFlux wave (List.replicate wave.length 1) wave_new).getD i none := by
        rw [List.getD_eq_getElem _ _ hrl]
      rw [hflux, rebinFlux_getD h2 hiM, hpair, rebinPix_ones b1 hmono b4]
      have hpa : (pairAdj vs)[i] = (vs.getD i 0, vs.getD (i + 1) 0) := by
        rw [pairAdj_getElem vs i (by omega) hpal,
          List.getD_eq_getElem _ _ (by omega), List.getD_eq_getElem _ _ (by omega)]
      rw [hpa]
      simp
  rw [hkey, pairAdj_diff_sum vs]
  have hne : ps ≠ [] := by
    intro h
    rw [h] at hpslen
    simp at hpslen
  rw [hvs, getLastD_map_getD ps hne, headD_map_getD ps hne]

/-- C7 (witness): the telescoping conservation theorem applied at
`wave = [0, 1, 2, 3]`, `newWave = [1, 2]` (edges 0.5, 1.5, 2.5, all
inside coverage; mapped positions 1, 2, 3; flux sums to 3 − 1 = 2). -/
theorem rebin_conservation_index_span_witness :
    (List.Chain' (· < ·) [(0 : ℚ), 1, 2, 3] ∧ 2 ≤ ([(0 : ℚ), 1, 2, 3]).length ∧
      List.Chain' (· < ·) [(1 : ℚ), 2] ∧ 2 ≤ ([(1 : ℚ), 2]).length ∧
      (∀ p ∈ newEdgePos [(0 : ℚ), 1, 2, 3] [(1 : ℚ), 2], p.isSome = true)) ∧
    ((rebinFlux [(0 : ℚ), 1, 2, 3]
          (List.replicate ([(0 : ℚ), 1, 2, 3]).length 1) [(1 : ℚ), 2]).map
        fun o => o.getD 0).sum =
      ((newEdgePos [(0 : ℚ), 1, 2, 3] [(1 : ℚ), 2]).getLastD none).getD 0 -
        ((newEdgePos [(0 : ℚ), 1, 2, 3] [(1 : ℚ), 2]).headD none).getD 0 := by
  have h1 : List.Chain' (· < ·) [(0 : ℚ), 1, 2, 3] := by
    norm_num [List.chain'_cons, List.chain'_singleton]
  have h2 : 2 ≤ ([(0 : ℚ), 1, 2, 3]).length := by norm_num
  have h3 : List.Chain' (· < ·) [(1 : ℚ), 2] := by
    norm_num [List.chain'_cons, List.chain'_singleton]
  have h4 : 2 ≤ ([(1 : ℚ), 2]).length := by norm_num
  have h5 : ∀ p ∈ newEdgePos [(0 : ℚ), 1, 2, 3] [(1 : ℚ), 2], p.isSome = true := by
    intro p hp
    norm_num [newEdgePos, center2edge, edgesAux, interpIndex, interpSeg,
      List.getLastD] at hp
    rcases hp with h | h | h <;> rw [h] <;> rfl
  exact ⟨⟨h1, h2, h3, h4, h5⟩, rebin_conservation_index_span h1 h2 h3 h4 h5⟩

/-! ### Log-grid lemmas -/

theorem linspace_length (a b : ℝ) (n : ℕ) : (linspace a b n).length = n := by
  unfold linspace
  rw [List.length_map, List.length_range]

theorem getD_map_of_lt {α β : Type} (l : List α) (f : α → β) (d : β) (d' : α)
    {i : ℕ} (hi : i < l.length) : (l.map f).getD i d = f (l.getD i d') := by
  rw [List.getD_eq_getElem _ _ (by simp only [List.length_map]; omega),
    List.getElem_map, List.getD_eq_getElem _ _ hi]

theorem getLastD_map_of_pos {α β : Type} (l : List α) (f : α → β) (d : β) (d' : α)
    (h : 0 < l.length) : (l.map f).getLastD d = f (l.getLastD d') := by
  rw [getLastD_eq_getD _ _ (by simp only [List.length_map]; omega),
    getLastD_eq_getD _ _ h]
  simp only [List.length_map]
  exact getD_map_of_lt l f d d' (by omega)

theorem linspace_first (a b : ℝ) {n : ℕ} (hn : 0 < n) :
    (linspace a b n).getD 0 0 = a := by
  unfold linspace
  rw [List.getD_eq_getElem _ _ (by simp only [List.length_map, List.length_range]; omega),
    List.getElem_map, List.getElem_range]
  simp

theorem linspace_last (a b : ℝ) {n : ℕ} (hn : 2 ≤ n) :
    (linspace a b n).getLastD 0 = b := by
  unfold linspace
  rw [getLastD_eq_getD _ _ (by simp only [List.length_map, List.length_range]; omega)]
  simp only [List.length_map, List.length_range]
  rw [List.getD_eq_getElem _ _ (by simp only [List.length_map, List.length_range]; omega),
    List.getElem_map, List.getElem_range]
  have hne : ((n : ℝ) - 1) ≠ 0 := by
    have h2 : (2 : ℝ) ≤ (n : ℝ) := by exact_mod_cast hn
    linarith
  have hcast : ((n - 1 : ℕ) : ℝ) = (n : ℝ) - 1 := by
    have h1 : 1 ≤ n := by omega
    push_cast [h1]
    ring
  rw [hcast]
  field_simp

theorem linspace_getD (a b : ℝ) {n i : ℕ} (hi : i < n) :
    (linspace a b n).getD i 0 = a + (i : ℝ) * ((b - a) / ((n : ℝ) - 1)) := by
  unfold linspace
  rw [List.getD_eq_getElem _ _
      (by simp only [List.length_map, List.length_range]; omega),
    List.getElem_map, List.getElem_range]

/-- C9 (counterexample): for `wave = [-2, -1]` (median spacing 1 > 0,
length 2) the claim says the grid's first element is `min(wave) = -2`;
in fact `log10` of the negative minimum is not finite, every sample of
the returned grid is NaN, and in particular the first element is NaN,
not −2. -/
theorem wave_log10_nonpositive_counterexample :
    0 < mdwave [(-2 : ℚ), -1] ∧
    (wave_log10 [(-2 : ℚ), -1] none).length = 2 ∧
    (wave_log10 [(-2 : ℚ), -1] none).getD 0 (some 0) = none := by
  have hmd : mdwave [(-2 : ℚ), -1] = 1 := by
    norm_num [mdwave, median, diffs, List.insertionSort, List.orderedInsert]
  have hwl : wave_log10 [(-2 : ℚ), -1] none = List.replicate 2 none := by
    unfold wave_log10
    rw [Option.getD_none, hmd]
    have hmin : listMin [(-2 : ℚ), -1] = -2 := by
      norm_num [listMin, min_def]
    have hmax : listMax [(-2 : ℚ), -1] = -1 := by
      norm_num [listMax, max_def]
    rw [if_neg (by rw [hmin]; norm_num)]
    have hnpix : (truncInt (ptp [(-2 : ℚ), -1] / 1) + 1).toNat = 2 := by
      norm_num [ptp, hmin, hmax, truncInt, Int.toNat]
    rw [hnpix]
  refine ⟨by rw [hmd]; norm_num, by rw [hwl]; rfl, by rw [hwl]; rfl⟩

/-- C9 (amended): for every wave of length ≥ 2 with positive median
spacing and positive minimum, `wave_log10` returns a log10-uniform
sequence whose first element is `min(wave)`, whose last element is
`max(wave)`, and whose length is `⌊(max − min)/spacing⌋ + 1` (spacing
defaulting to the median of consecutive differences).  Log10-uniformity
is stated exactly: sample i equals `10 ^ (log10 min + i·step)` with the
constant step `(log10 max − log10 min)/(length − 1)`, so consecutive
samples have the constant ratio `10 ^ step`.  Positivity of the
wavelengths is required: otherwise `log10` is not finite and the samples
are NaN. -/
theorem wave_log10_grid_spec {wave : List ℚ}
    (hw : 2 ≤ wave.length) (hd : 0 < mdwave wave) (hmin : 0 < listMin wave) :
    (wave_log10 wave none).length = (⌊ptp wave / mdwave wave⌋).toNat + 1 ∧
    (wave_log10 wave none).getD 0 none = some ((listMin wave : ℝ)) ∧
    (wave_log10 wave none).getLastD none = some ((listMax wave : ℝ)) ∧
    (∀ i, i < (wave_log10 wave none).length →
      (wave_log10 wave none).getD i none =
        some ((10 : ℝ) ^ (Real.logb 10 ((listMin wave : ℝ)) +
          (i : ℝ) * ((Real.logb 10 ((listMax wave : ℝ)) -
              Real.logb 10 ((listMin wave : ℝ))) /
            (((wave_log10 wave none).length : ℝ) - 1))))) ∧
    (∀ i, i + 1 < (wave_log10 wave none).length →
      ((wave_log10 wave none).getD (i + 1) none).getD 0 =
        ((wave_log10 wave none).getD i none).getD 0 *
          (10 : ℝ) ^ ((Real.logb 10 ((listMax wave : ℝ)) -
              Real.logb 10 ((listMin wave : ℝ))) /
            (((wave_log10 wave none).length : ℝ) - 1))) := by
  have hne : wave ≠ [] := by
    intro h
    rw [h] at hw
    simp at hw
  have hmax : 0 < listMax wave := lt_of_lt_of_le hmin (listMin_le_listMax hne)
  have hptp : mdwave wave ≤ ptp wave := mdwave_le_ptp hw
  have hq1 : 1 ≤ ptp wave / mdwave wave := (one_le_div hd).mpr hptp
  have hq0 : 0 ≤ ptp wave / mdwave wave := by linarith
  have hfl1 : 1 ≤ ⌊ptp wave / mdwave wave⌋ := Int.le_floor.mpr (by exact_mod_cast hq1)
  have htr : truncInt (ptp wave / mdwave wave) = ⌊ptp wave / mdwave wave⌋ := by
    unfold truncInt
    rw [if_pos hq0]
  have hnpix2 : 2 ≤ (⌊ptp wave / mdwave wave⌋ + 1).toNat := by omega
  have hwl : wave_log10 wave none =
      (linspace (Real.logb 10 ((listMin wave : ℝ)))
        (Real.logb 10 ((listMax wave : ℝ)))
        ((⌊ptp wave / mdwave wave⌋ + 1).toNat)).map
        (fun t => some ((10 : ℝ) ^ t)) := by
    unfold wave_log10
    rw [Option.getD_none]
    dsimp only
    rw [htr, if_pos hmin]
  have hminR : (0 : ℝ) < ((listMin wave : ℚ) : ℝ) := by exact_mod_cast hmin
  have hmaxR : (0 : ℝ) < ((listMax wave : ℚ) : ℝ) := by exact_mod_cast hmax
  have hlen : (wave_log10 wave none).length =
      (⌊ptp wave / mdwave wave⌋).toNat + 1 := by
    rw [hwl, List.length_map, linspace_length]
    omega
  have hnn : (⌊ptp wave / mdwave wave⌋).toNat + 1 =
      (⌊ptp wave / mdwave wave⌋ + 1).toNat := by omega
  refine ⟨hlen, ?_, ?_, ?_, ?_⟩
  · rw [hwl, getD_map_of_lt _ _ none 0 (by rw [linspace_length]; omega),
      linspace_first _ _ (by omega)]
    rw [Real.rpow_logb (by norm_num) (by norm_num) hminR]
  · rw [hwl, getLastD_map_of_pos _ _ none 0 (by rw [linspace_length]; omega),
      linspace_last _ _ hnpix2]
    rw [Real.rpow_logb (by norm_num) (by norm_num) hmaxR]
  · intro i hi
    rw [hlen, hnn] at hi
    rw [hlen, hnn, hwl,
      getD_map_of_lt _ _ none 0 (by rw [linspace_length]; exact hi),
      linspace_getD _ _ hi]
  · intro i hi
    rw [hlen, hnn] at hi
    rw [hlen, hnn, hwl]
    have e1 : ((linspace (Real.logb 10 ((listMin wave : ℝ)))
        (Real.logb 10 ((listMax wave : ℝ)))
        ((⌊ptp wave / mdwave wave⌋ + 1).toNat)).map
        (fun t => some ((10 : ℝ) ^ t))).getD (i + 1) none =
        some ((10 : ℝ) ^ (Real.logb 10 ((listMin wave : ℝ)) +
          ((i + 1 : ℕ) : ℝ) * ((Real.logb 10 ((listMax wave : ℝ)) -
              Real.logb 10 ((listMin wave : ℝ))) /
            ((((⌊ptp wave / mdwave wave⌋ + 1).toNat : ℕ) : ℝ) - 1)))) := by
      rw [getD_map_of_lt _ _ none 0 (by rw [linspace_length]; exact hi),
        linspace_getD _ _ hi]
    have e2 : ((linspace (Real.logb 10 ((listMin wave : ℝ)))
        (Real.logb 10 ((listMax wave : ℝ)))
        ((⌊ptp wave / mdwave wave⌋ + 1).toNat)).map
        (fun t => some ((10 : ℝ) ^ t))).getD i none =
        some ((10 : ℝ) ^ (Real.logb 10 ((listMin wave : ℝ)) +
          (i : ℝ) * ((Real.logb 10 ((listMax wave : ℝ)) -
              Real.logb 10 ((listMin wave : ℝ))) /
            ((((⌊ptp wave / mdwave wave⌋ + 1).toNat : ℕ) : ℝ) - 1)))) := by
      rw [getD_map_of_lt _ _ none 0 (by rw [linspace_length]; omega),
        linspace_getD _ _ (by omega : i < (⌊ptp wave / mdwave wave⌋ + 1).toNat)]
    rw [e1, e2, Option.getD_some, Option.getD_some,
      ← Real.rpow_add (by norm_num : (0 : ℝ) < 10)]
    congr 1
    push_cast
    ring

/-- C9 (witness): the grid theorem applied at `wave = [1, 2, 4]`
(median spacing 3/2, minimum 1): the grid has ⌊3/(3/2)⌋ + 1 = 3
log10-uniform samples, starting at 1 and ending at 4. -/
theorem wave_log10_grid_spec_witness :
    (2 ≤ ([(1 : ℚ), 2, 4]).length ∧ 0 < mdwave [(1 : ℚ), 2, 4] ∧
      0 < listMin [(1 : ℚ), 2, 4]) ∧
    ((wave_log10 [(1 : ℚ), 2, 4] none).length =
        (⌊ptp [(1 : ℚ), 2, 4] / mdwave [(1 : ℚ), 2, 4]⌋).toNat + 1 ∧
      (wave_log10 [(1 : ℚ), 2, 4] none).getD 0 none =
        some ((listMin [(1 : ℚ), 2, 4] : ℝ)) ∧
      (wave_log10 [(1 : ℚ), 2, 4] none).getLastD none =
        some ((listMax [(1 : ℚ), 2, 4] : ℝ)) ∧
      (∀ i, i < (wave_log10 [(1 : ℚ), 2, 4] none).length →
        (wave_log10 [(1 : ℚ), 2, 4] none).getD i none =
          some ((10 : ℝ) ^ (Real.logb 10 ((listMin [(1 : ℚ), 2, 4] : ℝ)) +
            (i : ℝ) * ((Real.logb 10 ((listMax [(1 : ℚ), 2, 4] : ℝ)) -
                Real.logb 10 ((listMin [(1 : ℚ), 2, 4] : ℝ))) /
              (((wave_log10 [(1 : ℚ), 2, 4] none).length : ℝ) - 1))))) ∧
      (∀ i, i + 1 < (wave_log10 [(1 : ℚ), 2, 4] none).length →
        ((wave_log10 [(1 : ℚ), 2, 4] none).getD (i + 1) none).getD 0 =
          ((wave_log10 [(1 : ℚ), 2, 4] none).getD i none).getD 0 *
            (10 : ℝ) ^ ((Real.logb 10 ((listMax [(1 : ℚ), 2, 4] : ℝ)) -
                Real.logb 10 ((listMin [(1 : ℚ), 2, 4] : ℝ))) /
              (((wave_log10 [(1 : ℚ), 2, 4] none).length : ℝ) - 1)))) := by
  have h1 : 2 ≤ ([(1 : ℚ), 2, 4]).length := by norm_num
  have h2 : 0 < mdwave [(1 : ℚ), 2, 4] := by
    norm_num [mdwave, median, diffs, List.insertionSort, List.orderedInsert]
  have h3 : 0 < listMin [(1 : ℚ), 2, 4] := by
    norm_num [listMin, min_def]
  exact ⟨⟨h1, h2, h3⟩, wave_log10_grid_spec h1 h2 h3⟩

end Laspec
